import Mathlib

/-!
Mandelbrot row scheduler (`mandel_dynamic.cpp`).

A shallow embedding of the input validation and of the master/worker row
protocol of `mandel_dynamic.cpp`.

* `inBounds`, `valid` are the two validation functions.  `argv` is represented
  by the two integers `atoi` yields for `argv[1]` and `argv[2]`.
* The master branch of `main` (priming `while` loop followed by the
  `do … while( count > 0 )` loop) is a step function `step` on a state `Sys`
  that also carries the messages in flight, so that the only nondeterminism,
  `MPI_Recv` with `MPI_ANY_SOURCE`, is resolved by a scheduler argument.
* The worker branch of `main` is `workerBody`; the floating point part of the
  worker (coordinate mapping and `cal_pixel`) is the field `cal` of `Cfg`.
* The raster `p` has `height` rows: a store through `p[ rcvdRow ]` with
  `rcvdRow` outside `[0, height)` is undefined behaviour and ends the run with
  `Fault.outOfBounds`; an `MPI_Recv` that no message can ever satisfy ends it
  with `Fault.blocked`.
-/

namespace MandelDynamic

/-! ## Constants -/

/-- Rank of the master process (`#define MASTER 0`). -/
def MASTER : Nat := 0

/-- Largest accepted width (`#define MAX_WIDTH 32000`). -/
def MAX_WIDTH : Int := 32000

/-- Largest accepted height (`#define MAX_HEIGHT 32000`). -/
def MAX_HEIGHT : Int := 32000

/-- The value the master sends to stop a worker (`kill = -1`). -/
def kill : Int := -1

/-- Modulus of the grey scale (`greyScaleMod = 256`). -/
def greyScaleMod : Int := 256

/-! ## Validation -/

/-- The function `inBounds( w, h )`: false when one of the four tests of its
`if` fires, true otherwise. -/
def inBounds (w h : Int) : Bool :=
  if w < 0 ∨ w > MAX_WIDTH ∨ h < 0 ∨ h > MAX_HEIGHT then false else true

/-- The function `valid( argc, argv, w, h )`.  `a1` and `a2` stand for
`atoi( argv[ 1 ] )` and `atoi( argv[ 2 ] )`; `w` and `h` are the values the two
reference parameters hold on entry.  The result is the returned `bool` together
with the values of `w` and `h` on exit. -/
def valid (argc : Int) (a1 a2 : Int) (w h : Int) : Bool × Int × Int :=
  if argc = 3 then
    if inBounds a1 a2 then (true, a1, a2) else (false, a1, a2)
  else (false, w, h)

/-! ## Workers -/

/-- Parameters of one run: the image dimensions, the number of MPI processes
and, for every pixel `(row, col)`, the count `cal_pixel( c )` returns at the
point `c` the worker maps that pixel to (single precision arithmetic, left
abstract). -/
structure Cfg where
  width : Int
  height : Int
  comm_sz : Nat
  cal : Int → Int → Int

/-- The byte `pixels[ col ] = ( cal_pixel( c ) * 35 ) % greyScaleMod`: the C
remainder of two `int`s, converted to `unsigned char`. -/
def pixelByte (cfg : Cfg) (row col : Int) : Nat :=
  ((Int.tmod (cfg.cal row col * 35) greyScaleMod) % 256).toNat

/-- The buffer `pixels` after the worker's `for( col = 0; col < width; col++ )`
loop for the row `row`. -/
def rowPixels (cfg : Cfg) (row : Int) : List Nat :=
  (List.range cfg.width.toNat).map (fun (col : Nat) => pixelByte cfg row (col : Int))

/-- One pass through the body of the worker's `while( go )` loop on the
received value `row`: `none` when the worker leaves the loop (`row == -1`),
otherwise the one message it sends back, as (tag, payload). -/
def workerBody (cfg : Cfg) (row : Int) : Option (Int × List Nat) :=
  if row = -1 then none else some (row, rowPixels cfg row)

/-! ## Master -/

/-- Where the master is in its branch of `main`. -/
inductive Pc where
  | priming
  | steady
  | finished
deriving DecidableEq, Repr

/-- State of the master together with the messages in flight.

* `proc`, `row`, `count` are the master's variables of the same names;
* `sent` lists the `MPI_Send`s of the master in order, as (destination, value);
* `rcvd` lists the results the master has received, as (source, tag);
* `writes` lists the assignments `p[ rcvdRow ][ col ] = pixels[ col ]` in
  order, as (row, column, value);
* `pending` holds the results workers have sent that the master has not
  received yet, as (source, tag, payload);
* `exited` lists the workers that have left their loop. -/
structure Sys where
  pc : Pc
  proc : Nat
  row : Int
  count : Int
  sent : List (Nat × Int)
  rcvd : List (Nat × Int)
  writes : List (Int × Nat × Nat)
  pending : List (Nat × Int × List Nat)
  exited : List Nat
deriving DecidableEq, Repr

/-- Ways a run can fail to continue: `MPI_Recv` with no message ever coming,
or a store through `p[ rcvdRow ]` outside the `height` allocated rows. -/
inductive Fault where
  | blocked
  | outOfBounds (rcvdRow : Int)
deriving DecidableEq, Repr

/-- State on entry to the master branch: `proc = 1`, `row = 0`, `count = 0`. -/
def init : Sys :=
  { pc := .priming, proc := 1, row := 0, count := 0, sent := [], rcvd := [],
    writes := [], pending := [], exited := [] }

/-- The call `MPI_Send( &v, 1, MPI_INT, dest, tag, MPI_COMM_WORLD )` of the
master, followed by the reaction of worker `dest`: a worker still in its loop
either leaves it or sends one result back. -/
def send (cfg : Cfg) (dest : Nat) (v : Int) (st : Sys) : Sys :=
  let st1 := { st with sent := st.sent ++ [(dest, v)] }
  if dest ∈ st.exited then st1
  else
    match workerBody cfg v with
    | none => { st1 with exited := st1.exited ++ [dest] }
    | some (tag, px) => { st1 with pending := st1.pending ++ [(dest, tag, px)] }

/-- The cells the loop `for( col = 0; col < width; col++ )
p[ rcvdRow ][ col ] = pixels[ col ]` assigns. -/
def rowWrites (cfg : Cfg) (rcvdRow : Int) (pixels : List Nat) : List (Int × Nat × Nat) :=
  (List.range cfg.width.toNat).map (fun col => (rcvdRow, col, pixels.getD col 0))

/-- The store of a received row.  `p` has `height` rows, so an assignment
through `p[ rcvdRow ]` with `rcvdRow` outside `[0, height)` is a fault; with
`width <= 0` the loop body never runs. -/
def store (cfg : Cfg) (rcvdRow : Int) (pixels : List Nat) (st : Sys) : Except Fault Sys :=
  if 0 < cfg.width ∧ (rcvdRow < 0 ∨ cfg.height ≤ rcvdRow) then
    .error (.outOfBounds rcvdRow)
  else
    .ok { st with writes := st.writes ++ rowWrites cfg rcvdRow pixels }

/-- One step of the master.

* `priming`: one test of `while( proc < comm_sz )` and, when it holds, one pass
  through the body (`MPI_Send` of `row`, `proc++`, `row++`, `count++`);
* `steady`: one pass through the body of the `do … while( count > 0 )` loop;
  `choice` selects which of the pending results `MPI_Recv` delivers;
* `finished`: the loop has been left. -/
def step (cfg : Cfg) (choice : Nat) (st : Sys) : Except Fault Sys :=
  match st.pc with
  | .priming =>
    if st.proc < cfg.comm_sz then
      let st1 := send cfg st.proc st.row st
      .ok { st1 with proc := st.proc + 1, row := st.row + 1, count := st.count + 1 }
    else
      .ok { st with pc := .steady }
  | .steady =>
    match st.pending[choice % st.pending.length]? with
    | none => .error .blocked
    | some (src, tag, pixels) =>
      let st1 := { st with
        pending := st.pending.eraseIdx (choice % st.pending.length)
        rcvd := st.rcvd ++ [(src, tag)]
        proc := src
        count := st.count - 1 }
      let st2 :=
        if st1.row < cfg.height then
          let s := send cfg src st1.row st1
          { s with row := s.row + 1, count := s.count + 1 }
        else
          send cfg src kill st1
      match store cfg tag pixels st2 with
      | .error e => .error e
      | .ok st3 => .ok { st3 with pc := if st3.count > 0 then .steady else .finished }
  | .finished => .ok st

/-- Run `n` steps of the master from `st`; the result delivered by the `k`-th
`MPI_Recv` (counting from 0) is chosen by `sched k`. -/
def run (cfg : Cfg) (sched : Nat → Nat) : Nat → Sys → Except Fault Sys
  | 0, st => .ok st
  | n + 1, st =>
    match step cfg (sched st.rcvd.length) st with
    | .error e => .error e
    | .ok st1 => run cfg sched n st1

/-- Run `n` steps of the master from the initial state. -/
def exec (cfg : Cfg) (sched : Nat → Nat) (n : Nat) : Except Fault Sys :=
  run cfg sched n init

/-- The master's path through `main`.  `valid` is called with
`width = height = 0`; when it returns false `main` returns at once (`none`: no
raster is allocated and no message is sent), otherwise the master branch runs
on the dimensions `valid` has stored, here for `n` steps. -/
def masterMain (argc a1 a2 : Int) (comm_sz : Nat) (cal : Int → Int → Int)
    (sched : Nat → Nat) (n : Nat) : Option (Except Fault Sys) :=
  match valid argc a1 a2 0 0 with
  | (true, w, h) =>
    some (exec { width := w, height := h, comm_sz := comm_sz, cal := cal } sched n)
  | (false, _, _) => none

/-! ## Observations on a state -/

/-- The row indices the master has sent as assignments, in order. -/
def rowsSent (st : Sys) : List Int :=
  (st.sent.map Prod.snd).filter (fun v => v ≠ kill)

/-- Number of row indices the master has sent to worker `w`. -/
def rowsTo (st : Sys) (w : Nat) : Nat :=
  (st.sent.filter (fun m => m.1 = w ∧ m.2 ≠ kill)).length

/-- Number of results the master has received from worker `w`. -/
def resultsFrom (st : Sys) (w : Nat) : Nat :=
  (st.rcvd.filter (fun m => m.1 = w)).length

/-- The value last stored in the raster cell `p[ r ][ c ]`, if any. -/
def raster (st : Sys) (r : Int) (c : Nat) : Option Nat :=
  ((st.writes.reverse.find? (fun w => w.1 = r ∧ w.2.1 = c)).map (fun w => w.2.2))

/-- How many times the raster cell `p[ r ][ c ]` has been assigned. -/
def writeCount (st : Sys) (r : Int) (c : Nat) : Nat :=
  (st.writes.filter (fun w => w.1 = r ∧ w.2.1 = c)).length

/-- Number of workers: every rank but the master. -/
def workers (cfg : Cfg) : Nat := cfg.comm_sz - 1

/-! ## The steps of the master in explicit form -/

/-- State after one pass through the body of the priming loop, when the worker
`proc` is still in its loop. -/
def primed (cfg : Cfg) (st : Sys) : Sys :=
  { st with
    sent := st.sent ++ [(st.proc, st.row)]
    pending := st.pending ++ [(st.proc, st.row, rowPixels cfg st.row)]
    proc := st.proc + 1
    row := st.row + 1
    count := st.count + 1 }

/-- State after one pass through the body of the `do` loop that receives the
result `(src, tag, px)`, leaving `rest` pending, and takes the branch
`row < height`. -/
def assigned (cfg : Cfg) (st : Sys) (rest : List (Nat × Int × List Nat)) (src : Nat)
    (tag : Int) (px : List Nat) : Sys :=
  { st with
    pending := rest ++ [(src, st.row, rowPixels cfg st.row)]
    rcvd := st.rcvd ++ [(src, tag)]
    proc := src
    sent := st.sent ++ [(src, st.row)]
    row := st.row + 1
    count := st.count - 1 + 1
    writes := st.writes ++ rowWrites cfg tag px
    pc := if st.count - 1 + 1 > 0 then .steady else .finished }

/-- State after one pass through the body of the `do` loop that receives the
result `(src, tag, px)`, leaving `rest` pending, and takes the `else` branch. -/
def stopped (cfg : Cfg) (st : Sys) (rest : List (Nat × Int × List Nat)) (src : Nat)
    (tag : Int) (px : List Nat) : Sys :=
  { st with
    pending := rest
    rcvd := st.rcvd ++ [(src, tag)]
    proc := src
    sent := st.sent ++ [(src, kill)]
    exited := st.exited ++ [src]
    count := st.count - 1
    writes := st.writes ++ rowWrites cfg tag px
    pc := if st.count - 1 > 0 then .steady else .finished }

/-- The transitions of the master, with the state after each one written out.
`Trans cfg st st1` is what `step` does from a state in which every worker that
has a result pending is still in its loop (see `step_trans`). -/
inductive Trans (cfg : Cfg) : Sys → Sys → Prop where
  | prime (st : Sys) (hpc : st.pc = .priming) (hlt : st.proc < cfg.comm_sz) :
      Trans cfg st (primed cfg st)
  | enter (st : Sys) (hpc : st.pc = .priming) (hge : ¬ st.proc < cfg.comm_sz) :
      Trans cfg st { st with pc := .steady }
  | assign (st : Sys) (l₁ l₂ : List (Nat × Int × List Nat)) (src : Nat) (tag : Int)
      (px : List Nat) (hpc : st.pc = .steady) (hp : st.pending = l₁ ++ (src, tag, px) :: l₂)
      (hrow : st.row < cfg.height)
      (hok : ¬ (0 < cfg.width ∧ (tag < 0 ∨ cfg.height ≤ tag))) :
      Trans cfg st (assigned cfg st (l₁ ++ l₂) src tag px)
  | stop (st : Sys) (l₁ l₂ : List (Nat × Int × List Nat)) (src : Nat) (tag : Int)
      (px : List Nat) (hpc : st.pc = .steady) (hp : st.pending = l₁ ++ (src, tag, px) :: l₂)
      (hrow : ¬ st.row < cfg.height)
      (hok : ¬ (0 < cfg.width ∧ (tag < 0 ∨ cfg.height ≤ tag))) :
      Trans cfg st (stopped cfg st (l₁ ++ l₂) src tag px)
  | stay (st : Sys) (hpc : st.pc = .finished) : Trans cfg st st

/-! ## The invariant of the protocol -/

/-- The invariant of the system state. -/
structure Inv (cfg : Cfg) (st : Sys) : Prop where
  row_nonneg : 0 ≤ st.row
  rows : rowsSent st = (List.range st.row.toNat).map Int.ofNat
  count_eq : st.count = st.pending.length
  nodup : (st.pending.map Prod.fst).Nodup
  alive : ∀ e ∈ st.pending, e.1 ∉ st.exited
  payload : ∀ e ∈ st.pending, e.2.2 = rowPixels cfg e.2.1
  flight : ∀ r : Int, (st.rcvd.map Prod.snd).count r
      + (st.pending.map (fun e => e.2.1)).count r = (rowsSent st).count r
  writes_eq : st.writes = st.rcvd.flatMap (fun m => rowWrites cfg m.2 (rowPixels cfg m.2))
  kills : (st.sent.filter (fun m => m.2 = kill)).map Prod.fst = st.exited
  exited_nodup : st.exited.Nodup
  last_kill : ∀ w ∈ st.exited,
      (st.sent.filter (fun m => m.1 = w)).getLast? = some (w, kill)
  priming : st.pc = .priming →
      st.proc = st.row.toNat + 1 ∧ st.sent.map Prod.fst = List.range' 1 st.row.toNat ∧
      st.pending.map Prod.fst = List.range' 1 st.row.toNat ∧ st.exited = [] ∧
      st.rcvd = [] ∧ st.proc ≤ max cfg.comm_sz 1
  pool : st.pc ≠ .priming → ∀ w, 1 ≤ w → w < cfg.comm_sz →
      w ∈ st.pending.map Prod.fst ∨ w ∈ st.exited
  row_ge : st.pc ≠ .priming → (workers cfg : Int) ≤ st.row
  row_le : st.row ≤ max (workers cfg : Int) cfg.height
  steady : st.pc = .steady → st.pending = [] → cfg.comm_sz ≤ 1 ∧ st.rcvd = []
  fin : st.pc = .finished → st.pending = [] ∧ cfg.height ≤ st.row
  balance : ∀ w, rowsTo st w = resultsFrom st w + (st.pending.filter (fun e => e.1 = w)).length
  last_row : ∀ e ∈ st.pending,
      (st.sent.filter (fun m => m.1 = e.1)).getLast? = some (e.1, e.2.1)
  in_bounds : 0 < cfg.width → ∀ m ∈ st.rcvd, 0 ≤ m.2 ∧ m.2 < cfg.height
  fin_rcvd : st.pc = .finished → st.rcvd ≠ []

/-- The runs on which no store leaves the raster: an image without columns, or
a pool of at most `height` workers. -/
def Safe (cfg : Cfg) : Prop := cfg.width ≤ 0 ∨ (workers cfg : Int) ≤ cfg.height

/-- Rows still to be handed out plus results still to be received. -/
def measure (cfg : Cfg) (st : Sys) : Nat :=
  (cfg.height - st.row).toNat + st.pending.length

/-- The states the system can be in: those some run from the initial state
reaches, under some schedule. -/
def Reachable (cfg : Cfg) (st : Sys) : Prop :=
  ∃ (sched : Nat → Nat) (n : Nat), exec cfg sched n = .ok st

/-- The state after `n` steps of a run that has not failed. -/
def stateAfter (cfg : Cfg) (sched : Nat → Nat) (n : Nat) : Sys :=
  match exec cfg sched n with
  | .ok st => st
  | .error _ => init

/-- A run of three processes on a 2 × 3 image, used to instantiate the
theorems below. -/
def demoCfg : Cfg := { width := 2, height := 3, comm_sz := 3, cal := fun r c => r + c + 1 }

/-! ## The pixel kernel and the coordinate mapping

`cal_pixel` and the mapping of a pixel to a point are written once, over a type
of numbers with the operations the source uses.  In `mandel_dynamic.cpp` the
mapping is an expression of type `double` whose value is stored in the `float`
fields of `struct complex`, and `cal_pixel` computes in `float`; in
`mandel_seq.cpp` the fields and `cal_pixel` are `double`.  The types `float`
and `double` are modelled below (`Binary`); the rationals give the same
computations in exact arithmetic. -/

/-- The struct `complex`: a real and an imaginary part. -/
structure complex (α : Type) where
  real : α
  imag : α

/-- The bound `max = 256` of `cal_pixel`. -/
def calMax : Int := 256

/-- The value of `z` after one pass through the body of the `do` loop of
`cal_pixel`: `temp = z.real * z.real - z.imag * z.imag + c.real`,
`z.imag = 2 * z.real * z.imag + c.imag`, `z.real = temp`. -/
def calStep {α : Type} [Add α] [Sub α] [Mul α] [OfNat α 2] (c z : complex α) : complex α :=
  { real := z.real * z.real - z.imag * z.imag + c.real
    imag := 2 * z.real * z.imag + c.imag }

/-- The value `lengthsq = z.real * z.real + z.imag * z.imag`. -/
def lengthsq {α : Type} [Add α] [Mul α] (z : complex α) : α :=
  z.real * z.real + z.imag * z.imag

/-- The `do … while ( ( lengthsq < 4.0 ) && ( count < max ) )` loop of
`cal_pixel`, entered with the values `z` and `count`; `fuel` bounds the number
of passes (256 are enough, see `calLoop_range`). -/
def calLoop {α : Type} [Add α] [Sub α] [Mul α] [OfNat α 2] [OfNat α 4] [LT α]
    [∀ a b : α, Decidable (a < b)] (c : complex α) : Nat → complex α → Int → Int
  | 0, _, count => count
  | fuel + 1, z, count =>
    if lengthsq (calStep c z) < 4 ∧ count + 1 < calMax then
      calLoop c fuel (calStep c z) (count + 1)
    else
      count + 1

/-- The function `cal_pixel( c )` of `mandel_dynamic.cpp`: the loop entered
with `z = (0, 0)` and `count = 0`. -/
def cal_pixel {α : Type} [Add α] [Sub α] [Mul α] [OfNat α 0] [OfNat α 2] [OfNat α 4] [LT α]
    [∀ a b : α, Decidable (a < b)] (c : complex α) : Int :=
  calLoop c 256 { real := 0, imag := 0 } 0

/-- The point the worker maps the pixel `(row, col)` to, with `radius = 2.0`
and `radSq = radius * radius`:
`c.real = ( col - width / radius ) * ( radSq / width )`,
`c.imag = ( row - height / radius ) * ( radSq / width )`. -/
def mapPixel {α : Type} [Sub α] [Mul α] [Div α] [OfNat α 2] [IntCast α]
    (width height row col : Int) : complex α :=
  { real := ((col : α) - (width : α) / (2 : α)) * (((2 : α) * (2 : α)) / (width : α))
    imag := ((row : α) - (height : α) / (2 : α)) * (((2 : α) * (2 : α)) / (width : α)) }

/-- The grey value stored for a count: `( count * 35 ) % greyScaleMod`, the C
remainder of two `int`s, converted to `unsigned char`. -/
def palette (count : Int) : Nat :=
  ((Int.tmod (count * 35) greyScaleMod) % 256).toNat

/-- The assignment of the two values of the mapping, of type `β`, to the fields
of a `struct complex` of type `α`: each is converted by `narrow`. -/
def narrowPoint {β α : Type} (narrow : β → α) (c : complex β) : complex α :=
  { real := narrow c.real
    imag := narrow c.imag }

/-- The parameters of a run whose workers evaluate the mapping with the numbers
`β`, store the point in a `struct complex` with fields of type `α` and run
`cal_pixel` on it with the numbers `α`. -/
def kernelCfg (β α : Type) [Sub β] [Mul β] [Div β] [OfNat β 2] [IntCast β]
    [Add α] [Sub α] [Mul α] [OfNat α 0] [OfNat α 2] [OfNat α 4] [LT α]
    [∀ a b : α, Decidable (a < b)] (narrow : β → α)
    (width height : Int) (comm_sz : Nat) : Cfg :=
  { width := width
    height := height
    comm_sz := comm_sz
    cal := fun row col =>
      cal_pixel (narrowPoint narrow (mapPixel width height row col : complex β)) }

/-- The worker's `while( go )` loop run on the values its successive
`MPI_Recv` calls return: the messages it sends back, in order.  The loop ends
at the first `-1`; when the values run out the worker waits in `MPI_Recv`. -/
def workerLoop (cfg : Cfg) : List Int → List (Int × List Nat)
  | [] => []
  | row :: rest =>
    match workerBody cfg row with
    | none => []
    | some reply => reply :: workerLoop cfg rest

/-! ## The reference orbit -/

/-- The sequence `z_0 = (0, 0)`, `z_{n+1} = z_n^2 + c` of the complex plane in
exact arithmetic, with the square of a complex number written out as the
product `(a + b i) (a + b i)`. -/
def specOrbit (c : complex ℚ) : Nat → complex ℚ
  | 0 => { real := 0, imag := 0 }
  | n + 1 =>
    { real := (specOrbit c n).real * (specOrbit c n).real
        - (specOrbit c n).imag * (specOrbit c n).imag + c.real
      imag := (specOrbit c n).real * (specOrbit c n).imag
        + (specOrbit c n).imag * (specOrbit c n).real + c.imag }

/-- The squared modulus `|z|^2` of a complex number. -/
def specNormSq (z : complex ℚ) : ℚ := z.real ^ 2 + z.imag ^ 2

/-! ## Binary floating point

The types `float` and `double` of the two programs: finite binary
floating-point numbers, every operation rounded to the nearest number of the
format, ties to the even significand.  Infinities, NaN and the sign of zero are
not represented: no operation of the programs on a pixel of an image with
`width > 0` overflows or divides by zero.  An expression is rounded after each
operation, to the format of its C type. -/

/-- A finite number `m * 2^e` of the binary format with `p` significand bits
and least quantum `2^qmin`. -/
structure Binary (p : Nat) (qmin : Int) where
  m : Int
  e : Int
deriving DecidableEq, Repr

/-- The number of binary digits of `n`, for `n` below `2^fuel`. -/
def Binary.digits : Nat → Nat → Nat
  | 0, _ => 0
  | fuel + 1, n => if n = 0 then 0 else Binary.digits fuel (n / 2) + 1

/-- The number of binary digits of `n`. -/
def Binary.bitLength (n : Nat) : Nat := Binary.digits n n

/-- Remove factors 2 from a significand, raising the exponent. -/
def Binary.strip : Nat → Int → Int → Int × Int
  | 0, m, e => (m, e)
  | fuel + 1, m, e => if m % 2 = 0 then Binary.strip fuel (m / 2) (e + 1) else (m, e)

/-- The number `m * 2^e` with an odd significand, zero being `0 * 2^0`. -/
def Binary.normal (p : Nat) (qmin : Int) (m e : Int) : Binary p qmin :=
  if m = 0 then { m := 0, e := 0 }
  else
    { m := (Binary.strip (Binary.bitLength m.natAbs) m e).1
      e := (Binary.strip (Binary.bitLength m.natAbs) m e).2 }

/-- The number of the format nearest to `n * 2^e`, ties to even: the
significand keeps its `p` leading bits, or fewer when the quantum would fall
below `2^qmin`. -/
def Binary.round (p : Nat) (qmin : Int) (n e : Int) : Binary p qmin :=
  if n = 0 then { m := 0, e := 0 }
  else
    let shift : Int := max ((Binary.bitLength n.natAbs : Int) - (p : Int)) (qmin - e)
    if shift ≤ 0 then Binary.normal p qmin n e
    else
      let q : Nat := n.natAbs / 2 ^ shift.toNat
      let rem : Nat := n.natAbs % 2 ^ shift.toNat
      let half : Nat := 2 ^ (shift.toNat - 1)
      let q1 : Nat := if half < rem ∨ (rem = half ∧ q % 2 = 1) then q + 1 else q
      Binary.normal p qmin (if n < 0 then -(q1 : Int) else (q1 : Int)) (e + shift)

/-- The significand of `x` at the exponent `e`, for `e` at most the exponent
of `x`. -/
def Binary.scaled {p : Nat} {qmin : Int} (x : Binary p qmin) (e : Int) : Int :=
  x.m * 2 ^ (x.e - e).toNat

/-- Rounded quotient.  The quotient of the significands is computed to `p + 2`
bits and more, with one more bit that records a remainder. -/
def Binary.div {p : Nat} {qmin : Int} (x y : Binary p qmin) : Binary p qmin :=
  if x.m = 0 ∨ y.m = 0 then { m := 0, e := 0 }
  else
    let k : Nat := p + 2 + Binary.bitLength y.m.natAbs
    let quo : Nat := x.m.natAbs * 2 ^ k / y.m.natAbs
    let r : Nat := x.m.natAbs * 2 ^ k % y.m.natAbs
    let n : Nat := 2 * quo + (if r = 0 then 0 else 1)
    Binary.round p qmin
      (if (x.m < 0 ∧ y.m < 0) ∨ (0 < x.m ∧ 0 < y.m) then (n : Int) else -(n : Int))
      (x.e - y.e - (k : Int) - 1)

/-- Rounded sum. -/
instance Binary.instAdd {p : Nat} {qmin : Int} : Add (Binary p qmin) where
  add x y := Binary.round p qmin
    (x.scaled (min x.e y.e) + y.scaled (min x.e y.e)) (min x.e y.e)

/-- Rounded difference. -/
instance Binary.instSub {p : Nat} {qmin : Int} : Sub (Binary p qmin) where
  sub x y := Binary.round p qmin
    (x.scaled (min x.e y.e) - y.scaled (min x.e y.e)) (min x.e y.e)

/-- Rounded product. -/
instance Binary.instMul {p : Nat} {qmin : Int} : Mul (Binary p qmin) where
  mul x y := Binary.round p qmin (x.m * y.m) (x.e + y.e)

/-- Rounded quotient. -/
instance Binary.instDiv {p : Nat} {qmin : Int} : Div (Binary p qmin) where
  div x y := Binary.div x y

/-- Opposite. -/
instance Binary.instNeg {p : Nat} {qmin : Int} : Neg (Binary p qmin) where
  neg x := { m := -x.m, e := x.e }

/-- Comparison of the values. -/
instance Binary.instLT {p : Nat} {qmin : Int} : LT (Binary p qmin) where
  lt x y := x.scaled (min x.e y.e) < y.scaled (min x.e y.e)

/-- The comparison is decidable. -/
instance Binary.instDecidableLT {p : Nat} {qmin : Int} (x y : Binary p qmin) :
    Decidable (x < y) :=
  inferInstanceAs (Decidable (x.scaled (min x.e y.e) < y.scaled (min x.e y.e)))

/-- A literal, rounded. -/
instance Binary.instOfNat {p : Nat} {qmin : Int} {n : Nat} : OfNat (Binary p qmin) n where
  ofNat := Binary.round p qmin (n : Int) 0

/-- The conversion of an `int`, rounded. -/
instance Binary.instIntCast {p : Nat} {qmin : Int} : IntCast (Binary p qmin) where
  intCast i := Binary.round p qmin i 0

/-- The value of a number. -/
def Binary.toRat {p : Nat} {qmin : Int} (x : Binary p qmin) : ℚ :=
  (x.m : ℚ) * (2 : ℚ) ^ x.e

/-- The type `float`: 24 significand bits, least quantum `2^-149`. -/
abbrev float : Type := Binary 24 (-149)

/-- The type `double`: 53 significand bits, least quantum `2^-1074`. -/
abbrev double : Type := Binary 53 (-1074)

/-- The conversion of a `double` to `float`. -/
def toFloat (x : double) : float := Binary.round 24 (-149) x.m x.e

/-- The parameters of a run of `mandel_dynamic.cpp`: the worker evaluates the
mapping in `double`, stores it in the `float` fields of `struct complex` and
runs `cal_pixel` in `float`. -/
def workerCfg (width height : Int) (comm_sz : Nat) : Cfg :=
  kernelCfg double float toFloat width height comm_sz

end MandelDynamic

namespace MandelSeq

/-! ## The sequential program (`mandel_seq.cpp`) -/

/-- Largest accepted width (`#define MAX_WIDTH 32000`). -/
def MAX_WIDTH : Int := 32000

/-- Largest accepted height (`#define MAX_HEIGHT 32000`). -/
def MAX_HEIGHT : Int := 32000

/-- The function `inBounds( argc, w, h )` of `mandel_seq.cpp`: true when one of
the four tests of its `if` fires, false otherwise. -/
def inBounds (_argc w h : Int) : Bool :=
  if w < 0 ∨ w > MAX_WIDTH ∨ h < 0 ∨ h > MAX_HEIGHT then true else false

/-- The function `valid( argc, argv, w, h )` of `mandel_seq.cpp`.  `a1` and `a2`
stand for `atoi( argv[ 1 ] )` and `atoi( argv[ 2 ] )`; `w` and `h` are the
values the two reference parameters hold on entry.  The result is the returned
`bool` together with the values of `w` and `h` on exit. -/
def valid (argc : Int) (a1 a2 : Int) (w h : Int) : Bool × Int × Int :=
  if argc = 3 then
    if inBounds argc a1 a2 then (false, a1, a2) else (true, a1, a2)
  else (false, w, h)

/-- The `do … while` loop of `cal_pixel` in `mandel_seq.cpp`, entered with the
values `z` and `count`; `fuel` bounds the number of passes. -/
def calLoop {α : Type} [Add α] [Sub α] [Mul α] [OfNat α 2] [OfNat α 4] [LT α]
    [∀ a b : α, Decidable (a < b)] (c : MandelDynamic.complex α) :
    Nat → MandelDynamic.complex α → Int → Int
  | 0, _, count => count
  | fuel + 1, z, count =>
    if (z.real * z.real - z.imag * z.imag + c.real)
          * (z.real * z.real - z.imag * z.imag + c.real)
        + (2 * z.real * z.imag + c.imag) * (2 * z.real * z.imag + c.imag) < 4
        ∧ count + 1 < 256 then
      calLoop c fuel
        { real := z.real * z.real - z.imag * z.imag + c.real
          imag := 2 * z.real * z.imag + c.imag } (count + 1)
    else
      count + 1

/-- The function `cal_pixel( c )` of `mandel_seq.cpp`. -/
def cal_pixel {α : Type} [Add α] [Sub α] [Mul α] [OfNat α 0] [OfNat α 2] [OfNat α 4] [LT α]
    [∀ a b : α, Decidable (a < b)] (c : MandelDynamic.complex α) : Int :=
  calLoop c 256 { real := 0, imag := 0 } 0

/-- The byte `pixels[ row ][ col ] = ( cal_pixel( c ) * 35 ) % greyScaleMod` of
the double loop of `mandel_seq.cpp`: the mapping and `cal_pixel` both compute
in `double`. -/
def pixel (width height row col : Int) : Nat :=
  MandelDynamic.palette
    (cal_pixel (MandelDynamic.mapPixel width height row col :
      MandelDynamic.complex MandelDynamic.double))

/-- The raster `pixels` after the double loop of `mandel_seq.cpp`: the cells
of the rows `[0, height)` and columns `[0, width)` hold their byte. -/
def raster (width height : Int) (row : Int) (col : Nat) : Option Nat :=
  if 0 ≤ row ∧ row < height ∧ (col : Int) < width then
    some (pixel width height row col)
  else none

end MandelSeq

namespace MandelDynamic

/-! ## Validation: lemmas -/

/-- What `valid` accepts: three arguments and both dimensions in `[0, 32000]`. -/
theorem valid_true_iff (argc a1 a2 w h : Int) :
    (valid argc a1 a2 w h).1 = true ↔
      argc = 3 ∧ 0 ≤ a1 ∧ a1 ≤ 32000 ∧ 0 ≤ a2 ∧ a2 ≤ 32000 := by
  unfold valid inBounds MAX_WIDTH MAX_HEIGHT
  by_cases h3 : argc = 3
  · by_cases hb : a1 < 0 ∨ a1 > 32000 ∨ a2 < 0 ∨ a2 > 32000
    · simp only [h3, hb, if_true]
      simp
      omega
    · simp only [h3, hb, if_true, if_false]
      simp
      omega
  · simp [h3]

/-! ## The steps of the master: lemmas -/

/-- An element read at an index splits the list around it, and erasing that
index leaves the two sides. -/
theorem getElem_split {α : Type} (xs : List α) (i : Nat) (e : α) (h : xs[i]? = some e) :
    ∃ l₁ l₂, xs = l₁ ++ e :: l₂ ∧ xs.eraseIdx i = l₁ ++ l₂ := by
  induction xs generalizing i with
  | nil => simp at h
  | cons x xs ih =>
    cases i with
    | zero =>
      simp at h
      exact ⟨[], xs, by simp [h], by simp⟩
    | succ i =>
      simp at h
      obtain ⟨l₁, l₂, h1, h2⟩ := ih i h
      exact ⟨x :: l₁, l₂, by simp [h1], by simp [h2]⟩

/-- Sending a row index to a worker that is still in its loop: the worker
answers with that row. -/
theorem send_row (cfg : Cfg) (d : Nat) (v : Int) (st : Sys) (hd : d ∉ st.exited)
    (hv : v ≠ -1) :
    send cfg d v st =
      { st with sent := st.sent ++ [(d, v)]
                pending := st.pending ++ [(d, v, rowPixels cfg v)] } := by
  simp [send, workerBody, hd, hv]

/-- Sending `kill` to a worker that is still in its loop: the worker leaves. -/
theorem send_kill (cfg : Cfg) (d : Nat) (st : Sys) (hd : d ∉ st.exited) :
    send cfg d kill st =
      { st with sent := st.sent ++ [(d, kill)]
                exited := st.exited ++ [d] } := by
  simp [send, workerBody, hd, kill]

/-- Every successful `step` is one of the transitions of `Trans`, provided the
row counter is not negative and the workers with a pending result, and in the
priming phase the worker about to be served, are still in their loops. -/
theorem step_trans (cfg : Cfg) (c : Nat) (st st1 : Sys) (hrow : 0 ≤ st.row)
    (halive : ∀ e ∈ st.pending, e.1 ∉ st.exited)
    (hprime : st.pc = .priming → st.exited = [])
    (hs : step cfg c st = .ok st1) : Trans cfg st st1 := by
  unfold step at hs
  split at hs
  · rename_i hpc
    split at hs
    · rename_i hlt
      have hd : st.proc ∉ st.exited := by simp [hprime hpc]
      have hv : st.row ≠ -1 := by omega
      rw [send_row cfg _ _ _ hd hv] at hs
      simp only [Except.ok.injEq] at hs
      subst hs
      exact Trans.prime st hpc hlt
    · rename_i hge
      simp only [Except.ok.injEq] at hs
      subst hs
      exact Trans.enter st hpc hge
  · rename_i hpc
    split at hs
    · simp at hs
    · rename_i src tag px hget
      obtain ⟨l₁, l₂, h1, h2⟩ := getElem_split _ _ _ hget
      have hd : src ∉ st.exited := halive (src, tag, px) (by simp [h1])
      by_cases hr : st.row < cfg.height
      · have hv : st.row ≠ -1 := by omega
        simp only [hr, if_true] at hs
        rw [send_row cfg _ _ _ (by simpa using hd) (by simpa using hv)] at hs
        by_cases hok : 0 < cfg.width ∧ (tag < 0 ∨ cfg.height ≤ tag)
        · simp [store, hok] at hs
        · simp only [store, hok, if_false, Except.ok.injEq] at hs
          subst hs
          have := Trans.assign st l₁ l₂ src tag px hpc h1 hr hok
          simpa [assigned, h2] using this
      · simp only [hr, if_false] at hs
        rw [send_kill cfg _ _ (by simpa using hd)] at hs
        by_cases hok : 0 < cfg.width ∧ (tag < 0 ∨ cfg.height ≤ tag)
        · simp [store, hok] at hs
        · simp only [store, hok, if_false, Except.ok.injEq] at hs
          subst hs
          have := Trans.stop st l₁ l₂ src tag px hpc h1 hr hok
          simpa [stopped, h2] using this
  · rename_i hpc
    simp only [Except.ok.injEq] at hs
    subst hs
    exact Trans.stay st hpc

/-! ## Preservation of the invariant -/

/-- The initial state satisfies the invariant. -/
theorem inv_init (cfg : Cfg) : Inv cfg init := by
  constructor <;> simp [init, rowsSent, workers, rowsTo, resultsFrom]

/-- A pass through the priming loop sends the current row index. -/
theorem rowsSent_primed (cfg : Cfg) (st : Sys) (h : 0 ≤ st.row) :
    rowsSent (primed cfg st) = rowsSent st ++ [st.row] := by
  have hk : st.row ≠ kill := by simp only [kill]; omega
  simp [rowsSent, primed, List.filter_append, hk]

/-- The indices below `r + 1` are those below `r`, then `r`. -/
theorem range_map_succ (r : Int) (h : 0 ≤ r) :
    (List.range (r + 1).toNat).map Int.ofNat = (List.range r.toNat).map Int.ofNat ++ [r] := by
  have htn : (r + 1).toNat = r.toNat + 1 := by omega
  rw [htn, List.range_succ, List.map_append]
  simp [Int.toNat_of_nonneg h]

/-- The ranks `1, …, n + 1` are the ranks `1, …, n`, then `n + 1`. -/
theorem range_one_concat (n : Nat) :
    List.range' 1 n ++ [n + 1] = List.range' 1 (n + 1) := by
  rw [List.range'_concat]
  simp [Nat.add_comm]

/-- A pass through the priming loop preserves the invariant. -/
theorem inv_prime (cfg : Cfg) (st : Sys) (h : Inv cfg st) (hpc : st.pc = .priming)
    (hlt : st.proc < cfg.comm_sz) : Inv cfg (primed cfg st) := by
  obtain ⟨hproc, hsent, hpend, hex, hrcvd, hmax⟩ := h.priming hpc
  have hrow := h.row_nonneg
  have hk : st.row ≠ kill := by simp only [kill]; omega
  have htn : (st.row + 1).toNat = st.row.toNat + 1 := by omega
  have hrs := rowsSent_primed cfg st hrow
  constructor
  · show 0 ≤ st.row + 1
    omega
  · rw [hrs, h.rows]
    exact (range_map_succ st.row hrow).symm
  · have := h.count_eq
    simp only [primed, List.length_append, List.length_singleton]
    push_cast
    omega
  · simp only [primed, List.map_append, List.map_cons, List.map_nil, hpend]
    rw [hproc, range_one_concat]
    exact List.nodup_range' _ _
  · simp [primed, hex]
  · intro e he
    simp only [primed, List.mem_append, List.mem_singleton] at he
    rcases he with he | he
    · exact h.payload e he
    · simp [he]
  · intro r
    rw [hrs]
    have := h.flight r
    simp only [primed, List.map_append, List.count_append, List.map_cons, List.map_nil] at this ⊢
    omega
  · exact h.writes_eq
  · simp [primed, List.filter_append, hk, h.kills]
  · exact h.exited_nodup
  · intro w hw
    simp [primed, hex] at hw
  · intro _
    refine ⟨by simp [primed, htn, hproc], ?_, ?_, hex, hrcvd, ?_⟩
    · simp only [primed, List.map_append, List.map_cons, List.map_nil, hsent, htn]
      rw [hproc, range_one_concat]
    · simp only [primed, List.map_append, List.map_cons, List.map_nil, hpend, htn]
      rw [hproc, range_one_concat]
    · show st.proc + 1 ≤ max cfg.comm_sz 1
      omega
  · intro hne
    exact absurd hpc hne
  · intro hne
    exact absurd hpc hne
  · show st.row + 1 ≤ max (workers cfg : Int) cfg.height
    have : st.row + 1 ≤ (workers cfg : Int) := by
      simp only [workers]
      omega
    exact le_trans this (le_max_left _ _)
  · intro hs
    simp [primed, hpc] at hs
  · intro hs
    simp [primed, hpc] at hs
  · intro w
    have := h.balance w
    simp only [rowsTo, resultsFrom, primed, List.filter_append, List.length_append] at this ⊢
    by_cases hw : st.proc = w
    · simp [hw, hk] at this ⊢
      omega
    · simp [hw] at this ⊢
      omega
  · intro e he
    simp only [primed, List.mem_append, List.mem_singleton] at he
    rcases he with he | he
    · have hmem : e.1 ∈ List.range' 1 st.row.toNat := by
        rw [← hpend]
        exact List.mem_map_of_mem Prod.fst he
      rw [List.mem_range'] at hmem
      have hne : st.proc ≠ e.1 := by omega
      simpa [primed, List.filter_append, hne] using h.last_row e he
    · subst he
      simp [primed, List.filter_append]
  · intro _ m hm
    have hm1 : m ∈ st.rcvd := hm
    rw [hrcvd] at hm1
    simp at hm1
  · intro hs
    simp [primed, hpc] at hs

/-- Leaving the priming loop preserves the invariant. -/
theorem inv_enter (cfg : Cfg) (st : Sys) (h : Inv cfg st) (hpc : st.pc = .priming)
    (hge : ¬ st.proc < cfg.comm_sz) : Inv cfg { st with pc := .steady } := by
  obtain ⟨hproc, hsent, hpend, hex, hrcvd, hmax⟩ := h.priming hpc
  have hrow := h.row_nonneg
  constructor
  · exact h.row_nonneg
  · exact h.rows
  · exact h.count_eq
  · exact h.nodup
  · exact h.alive
  · exact h.payload
  · exact h.flight
  · exact h.writes_eq
  · exact h.kills
  · exact h.exited_nodup
  · exact h.last_kill
  · intro hs
    simp at hs
  · intro _ w hw1 hw2
    left
    show w ∈ st.pending.map Prod.fst
    rw [hpend, List.mem_range']
    exact ⟨w - 1, by omega, by omega⟩
  · intro _
    show (workers cfg : Int) ≤ st.row
    simp only [workers]
    omega
  · exact h.row_le
  · intro _ hp
    have hp' : st.pending = [] := hp
    rw [hp'] at hpend
    have h0 : st.row.toNat = 0 := by
      cases hn : st.row.toNat with
      | zero => rfl
      | succ n => rw [hn] at hpend; simp [List.range'_succ] at hpend
    exact ⟨by omega, hrcvd⟩
  · intro hs
    simp at hs
  · exact h.balance
  · exact h.last_row
  · exact h.in_bounds
  · intro hs
    simp at hs

/-- A pass through the `do` loop that hands out a row preserves the
invariant. -/
theorem inv_assign (cfg : Cfg) (st : Sys) (h : Inv cfg st)
    (l₁ l₂ : List (Nat × Int × List Nat)) (src : Nat) (tag : Int) (px : List Nat)
    (hpc : st.pc = .steady) (hp : st.pending = l₁ ++ (src, tag, px) :: l₂)
    (hr : st.row < cfg.height)
    (hok : ¬ (0 < cfg.width ∧ (tag < 0 ∨ cfg.height ≤ tag))) :
    Inv cfg (assigned cfg st (l₁ ++ l₂) src tag px) := by
  have hrow := h.row_nonneg
  have hk : st.row ≠ kill := by simp only [kill]; omega
  have hne : st.pc ≠ .priming := by simp [hpc]
  have hrs : rowsSent (assigned cfg st (l₁ ++ l₂) src tag px) = rowsSent st ++ [st.row] := by
    simp [rowsSent, assigned, List.filter_append, hk]
  have hcount : st.count = (l₁.length + l₂.length + 1 : Nat) := by
    rw [h.count_eq, hp]
    simp
    omega
  have hnd := h.nodup
  rw [hp] at hnd
  simp only [List.map_append, List.map_cons, List.nodup_append, List.nodup_cons,
    List.mem_map, List.mem_cons, List.mem_append] at hnd
  have hsrc : src ∉ st.exited := h.alive (src, tag, px) (by simp [hp])
  have hpx : px = rowPixels cfg tag := h.payload (src, tag, px) (by simp [hp])
  have hpos : st.count - 1 + 1 > 0 := by omega
  have hpc1 : (assigned cfg st (l₁ ++ l₂) src tag px).pc = .steady := if_pos hpos
  constructor
  · show 0 ≤ st.row + 1
    omega
  · rw [hrs, h.rows]
    exact (range_map_succ st.row hrow).symm
  · simp only [assigned, List.length_append, List.length_singleton]
    push_cast
    omega
  · simp only [assigned, List.map_append, List.map_cons, List.map_nil, List.nodup_append,
      List.nodup_cons, List.mem_map, List.mem_cons, List.mem_append]
    aesop
  · intro e he
    simp only [assigned, List.mem_append, List.mem_singleton] at he ⊢
    rcases he with (he | he) | he
    · exact h.alive e (by simp [hp, he])
    · exact h.alive e (by simp [hp, he])
    · simpa [he] using hsrc
  · intro e he
    simp only [assigned, List.mem_append, List.mem_singleton] at he
    rcases he with (he | he) | he
    · exact h.payload e (by simp [hp, he])
    · exact h.payload e (by simp [hp, he])
    · simp [he]
  · intro r
    rw [hrs]
    have := h.flight r
    rw [hp] at this
    simp only [assigned, List.map_append, List.count_append, List.map_cons, List.map_nil,
      List.count_cons, List.count_nil] at this ⊢
    omega
  · simp only [assigned, List.flatMap_append, List.flatMap_cons, List.flatMap_nil,
      List.append_nil]
    rw [h.writes_eq, hpx]
  · simp [assigned, List.filter_append, hk, h.kills]
  · exact h.exited_nodup
  · intro w hw
    have hw' : w ∈ st.exited := hw
    have hne : src ≠ w := fun e => hsrc (e ▸ hw')
    simpa [assigned, List.filter_append, hne] using h.last_kill w hw'
  · intro hs
    rw [hpc1] at hs
    cases hs
  · intro _ w hw1 hw2
    have := h.pool hne w hw1 hw2
    rw [hp] at this
    simp only [assigned, List.map_append, List.map_cons, List.map_nil, List.mem_append,
      List.mem_cons, List.mem_map, List.mem_singleton] at this ⊢
    aesop
  · intro _
    have := h.row_ge hne
    show (workers cfg : Int) ≤ st.row + 1
    omega
  · show st.row + 1 ≤ max (workers cfg : Int) cfg.height
    exact le_trans (by omega) (le_max_right _ _)
  · intro _ hs
    simp [assigned] at hs
  · intro hs
    rw [hpc1] at hs
    cases hs
  · intro w
    have := h.balance w
    rw [hp] at this
    simp only [rowsTo, resultsFrom, assigned, List.filter_append, List.length_append,
      List.filter_cons] at this ⊢
    by_cases hw : src = w
    · simp [hw, hk] at this ⊢
      omega
    · simp [hw] at this ⊢
      omega
  · intro e he
    simp only [assigned, List.mem_append, List.mem_singleton] at he
    have hold : ∀ e ∈ st.pending, e.1 ≠ src →
        (List.filter (fun m => decide (m.1 = e.1)) (st.sent ++ [(src, st.row)])).getLast?
          = some (e.1, e.2.1) := by
      intro e he hne
      have hne' : src ≠ e.1 := fun h => hne h.symm
      simpa [List.filter_append, hne'] using h.last_row e he
    rcases he with (he | he) | he
    · refine hold e (by simp [hp, he]) ?_
      intro heq
      exact hnd.2.2 (List.mem_map_of_mem Prod.fst he) (by simp [heq])
    · refine hold e (by simp [hp, he]) ?_
      intro heq
      exact hnd.2.1.1 ⟨e, he, heq⟩
    · subst he
      simp [assigned, List.filter_append]
  · intro hw m hm
    simp only [assigned, List.mem_append, List.mem_singleton] at hm
    rcases hm with hm | hm
    · exact h.in_bounds hw m hm
    · subst hm
      show 0 ≤ tag ∧ tag < cfg.height
      constructor
      · by_contra hc
        exact hok ⟨hw, Or.inl (by omega)⟩
      · by_contra hc
        exact hok ⟨hw, Or.inr (by omega)⟩
  · intro _
    simp [assigned]

/-- A pass through the `do` loop that sends `kill` preserves the invariant. -/
theorem inv_stop (cfg : Cfg) (st : Sys) (h : Inv cfg st)
    (l₁ l₂ : List (Nat × Int × List Nat)) (src : Nat) (tag : Int) (px : List Nat)
    (hpc : st.pc = .steady) (hp : st.pending = l₁ ++ (src, tag, px) :: l₂)
    (hr : ¬ st.row < cfg.height)
    (hok : ¬ (0 < cfg.width ∧ (tag < 0 ∨ cfg.height ≤ tag))) :
    Inv cfg (stopped cfg st (l₁ ++ l₂) src tag px) := by
  have hrow := h.row_nonneg
  have hne : st.pc ≠ .priming := by simp [hpc]
  have hrs : rowsSent (stopped cfg st (l₁ ++ l₂) src tag px) = rowsSent st := by
    simp [rowsSent, stopped, List.filter_append]
  have hcount : st.count = (l₁.length + l₂.length + 1 : Nat) := by
    rw [h.count_eq, hp]
    simp
    omega
  have hnd := h.nodup
  rw [hp] at hnd
  simp only [List.map_append, List.map_cons, List.nodup_append, List.nodup_cons,
    List.mem_map, List.mem_cons, List.mem_append] at hnd
  have hsrc : src ∉ st.exited := h.alive (src, tag, px) (by simp [hp])
  have hpx : px = rowPixels cfg tag := h.payload (src, tag, px) (by simp [hp])
  have hpc1 : (stopped cfg st (l₁ ++ l₂) src tag px).pc =
      if st.count - 1 > 0 then .steady else .finished := rfl
  constructor
  · exact hrow
  · rw [hrs]
    exact h.rows
  · simp only [stopped, List.length_append]
    push_cast
    omega
  · simp only [stopped, List.map_append, List.nodup_append]
    refine ⟨hnd.1, hnd.2.1.2, ?_⟩
    intro a ha1 ha2
    exact hnd.2.2 ha1 (List.mem_cons_of_mem _ ha2)
  · intro e he
    simp only [stopped, List.mem_append, List.mem_singleton] at he ⊢
    have hold : e.1 ∉ st.exited := by
      rcases he with he | he
      · exact h.alive e (by simp [hp, he])
      · exact h.alive e (by simp [hp, he])
    have hsrc' : e.1 ≠ src := by
      rcases he with he | he
      · intro heq
        exact hnd.2.2 (List.mem_map_of_mem Prod.fst he) (by simp [heq])
      · intro heq
        exact hnd.2.1.1 ⟨e, he, heq⟩
    simp [hold, hsrc']
  · intro e he
    simp only [stopped, List.mem_append] at he
    rcases he with he | he
    · exact h.payload e (by simp [hp, he])
    · exact h.payload e (by simp [hp, he])
  · intro r
    rw [hrs]
    have := h.flight r
    rw [hp] at this
    simp only [stopped, List.map_append, List.count_append, List.map_cons, List.map_nil,
      List.count_cons, List.count_nil] at this ⊢
    omega
  · simp only [stopped, List.flatMap_append, List.flatMap_cons, List.flatMap_nil,
      List.append_nil]
    rw [h.writes_eq, hpx]
  · simp [stopped, List.filter_append, h.kills]
  · simp only [stopped]
    exact List.Nodup.append h.exited_nodup (List.nodup_singleton src) (by simpa using hsrc)
  · intro w hw
    simp only [stopped, List.mem_append, List.mem_singleton] at hw
    by_cases hws : src = w
    · subst hws
      simp [stopped, List.filter_append]
    · have hw1 : w ∈ st.exited := by
        rcases hw with hw | hw
        · exact hw
        · exact absurd hw.symm hws
      simpa [stopped, List.filter_append, hws] using h.last_kill w hw1
  · intro hs
    rw [hpc1] at hs
    split at hs <;> cases hs
  · intro _ w hw1 hw2
    have := h.pool hne w hw1 hw2
    rw [hp] at this
    simp only [stopped, List.map_append, List.map_cons, List.map_nil, List.mem_append,
      List.mem_cons, List.mem_map, List.mem_singleton] at this ⊢
    aesop
  · intro _
    exact h.row_ge hne
  · exact h.row_le
  · intro hs hpe
    rw [hpc1] at hs
    have hpe' : l₁ ++ l₂ = [] := hpe
    have : l₁.length + l₂.length = 0 := by
      rw [← List.length_append, hpe']
      rfl
    split at hs
    · omega
    · cases hs
  · intro hs
    rw [hpc1] at hs
    split at hs
    · cases hs
    · refine ⟨?_, ?_⟩
      · show l₁ ++ l₂ = []
        apply List.eq_nil_of_length_eq_zero
        rw [List.length_append]
        omega
      · show cfg.height ≤ st.row
        omega
  · intro w
    have := h.balance w
    rw [hp] at this
    simp only [rowsTo, resultsFrom, stopped, List.filter_append, List.length_append,
      List.filter_cons] at this ⊢
    by_cases hw : src = w
    · simp [hw, kill] at this ⊢
      omega
    · simp [hw] at this ⊢
      omega
  · intro e he
    simp only [stopped, List.mem_append] at he
    have hold : ∀ e ∈ st.pending, e.1 ≠ src →
        (List.filter (fun m => decide (m.1 = e.1)) (st.sent ++ [(src, kill)])).getLast?
          = some (e.1, e.2.1) := by
      intro e he hne
      have hne' : src ≠ e.1 := fun h => hne h.symm
      simpa [List.filter_append, hne'] using h.last_row e he
    rcases he with he | he
    · refine hold e (by simp [hp, he]) ?_
      intro heq
      exact hnd.2.2 (List.mem_map_of_mem Prod.fst he) (by simp [heq])
    · refine hold e (by simp [hp, he]) ?_
      intro heq
      exact hnd.2.1.1 ⟨e, he, heq⟩
  · intro hw m hm
    simp only [stopped, List.mem_append, List.mem_singleton] at hm
    rcases hm with hm | hm
    · exact h.in_bounds hw m hm
    · subst hm
      show 0 ≤ tag ∧ tag < cfg.height
      constructor
      · by_contra hc
        exact hok ⟨hw, Or.inl (by omega)⟩
      · by_contra hc
        exact hok ⟨hw, Or.inr (by omega)⟩
  · intro _
    simp [stopped]

/-- Every transition preserves the invariant. -/
theorem inv_trans (cfg : Cfg) (st st1 : Sys) (h : Inv cfg st) (ht : Trans cfg st st1) :
    Inv cfg st1 := by
  cases ht with
  | prime hpc hlt => exact inv_prime cfg st h hpc hlt
  | enter hpc hge => exact inv_enter cfg st h hpc hge
  | assign l₁ l₂ src tag px hpc hp hrow hok => exact inv_assign cfg st h l₁ l₂ src tag px hpc hp hrow hok
  | stop l₁ l₂ src tag px hpc hp hrow hok => exact inv_stop cfg st h l₁ l₂ src tag px hpc hp hrow hok
  | stay hpc => exact h

/-- From a state that satisfies the invariant, a successful step is one of the
transitions. -/
theorem inv_step_trans (cfg : Cfg) (c : Nat) (st st1 : Sys) (h : Inv cfg st)
    (hs : step cfg c st = .ok st1) : Trans cfg st st1 :=
  step_trans cfg c st st1 h.row_nonneg h.alive (fun hpc => (h.priming hpc).2.2.2.1) hs

/-- Every successful step preserves the invariant. -/
theorem inv_step (cfg : Cfg) (c : Nat) (st st1 : Sys) (h : Inv cfg st)
    (hs : step cfg c st = .ok st1) : Inv cfg st1 :=
  inv_trans cfg st st1 h (inv_step_trans cfg c st st1 h hs)

/-- Every successful run preserves the invariant. -/
theorem inv_run (cfg : Cfg) (sched : Nat → Nat) (n : Nat) (st st1 : Sys) (h : Inv cfg st)
    (hr : run cfg sched n st = .ok st1) : Inv cfg st1 := by
  induction n generalizing st with
  | zero =>
    simp only [run, Except.ok.injEq] at hr
    exact hr ▸ h
  | succ n ih =>
    simp only [run] at hr
    cases hs : step cfg (sched st.rcvd.length) st with
    | error e => rw [hs] at hr; cases hr
    | ok st2 =>
      rw [hs] at hr
      exact ih st2 (inv_step cfg _ st st2 h hs) hr

/-- Every state a run from the initial state reaches satisfies the invariant. -/
theorem inv_exec (cfg : Cfg) (sched : Nat → Nat) (n : Nat) (st : Sys)
    (hr : exec cfg sched n = .ok st) : Inv cfg st :=
  inv_run cfg sched n init st (inv_init cfg) hr

/-! ## Termination -/

/-- Once the loop has been left, further steps change nothing. -/
theorem run_finished (cfg : Cfg) (sched : Nat → Nat) (n : Nat) (st : Sys)
    (h : st.pc = .finished) : run cfg sched n st = .ok st := by
  induction n with
  | zero => rfl
  | succ n ih =>
    have hs : step cfg (sched st.rcvd.length) st = .ok st := by
      simp [step, h]
    simp only [run, hs]
    exact ih

/-- Running `a + b` steps is running `a` steps and then `b` more. -/
theorem run_add (cfg : Cfg) (sched : Nat → Nat) (a b : Nat) (st st1 : Sys)
    (h : run cfg sched a st = .ok st1) :
    run cfg sched (a + b) st = run cfg sched b st1 := by
  induction a generalizing st with
  | zero =>
    simp only [run, Except.ok.injEq] at h
    simp [h]
  | succ a ih =>
    rw [Nat.add_right_comm]
    simp only [run] at h ⊢
    cases hs : step cfg (sched st.rcvd.length) st with
    | error e => rw [hs] at h; cases h
    | ok st2 =>
      rw [hs] at h
      simp only []
      exact ih st2 h

/-- The tag of a pending result is the index of a row that has been sent. -/
theorem pending_tag_lt (cfg : Cfg) (st : Sys) (h : Inv cfg st)
    (e : Nat × Int × List Nat) (he : e ∈ st.pending) : 0 ≤ e.2.1 ∧ e.2.1 < st.row := by
  have hf := h.flight e.2.1
  have hc : 0 < (st.pending.map (fun e => e.2.1)).count e.2.1 :=
    List.count_pos_iff.mpr (List.mem_map_of_mem (fun e => e.2.1) he)
  have hm : e.2.1 ∈ rowsSent st := List.count_pos_iff.mp (by omega)
  rw [h.rows, List.mem_map] at hm
  obtain ⟨k, hk, hke⟩ := hm
  rw [List.mem_range] at hk
  have : (Int.ofNat k) = (k : Int) := rfl
  have hrow := h.row_nonneg
  omega

/-- The priming phase sends one row to every worker and then enters the `do`
loop: from a priming state this takes `comm_sz - proc + 1` steps. -/
theorem prime_run (cfg : Cfg) (sched : Nat → Nat) (k : Nat) (st : Sys) (h : Inv cfg st)
    (hpc : st.pc = .priming) (hk : cfg.comm_sz - st.proc = k) :
    ∃ st1, run cfg sched (k + 1) st = .ok st1 ∧ st1.pc = .steady := by
  induction k generalizing st with
  | zero =>
    have hge : ¬ st.proc < cfg.comm_sz := by omega
    refine ⟨{ st with pc := .steady }, ?_, rfl⟩
    simp [run, step, hpc, hge]
  | succ k ih =>
    have hlt : st.proc < cfg.comm_sz := by omega
    obtain ⟨hproc, hsent, hpend, hex, hrcvd, hmax⟩ := h.priming hpc
    have hrow := h.row_nonneg
    have hs : step cfg (sched st.rcvd.length) st = .ok (primed cfg st) := by
      have hd : st.proc ∉ st.exited := by simp [hex]
      have hv : st.row ≠ -1 := by omega
      simp only [step, hpc, hlt, if_true]
      rw [send_row cfg _ _ _ hd hv]
      rfl
    have hinv := inv_prime cfg st h hpc hlt
    have hpc1 : (primed cfg st).pc = .priming := hpc
    have hk1 : cfg.comm_sz - (primed cfg st).proc = k := by
      show cfg.comm_sz - (st.proc + 1) = k
      omega
    obtain ⟨st1, hr, hst1⟩ := ih (primed cfg st) hinv hpc1 hk1
    refine ⟨st1, ?_, hst1⟩
    rw [run, hs]
    exact hr

/-- In a safe run a pass through the `do` loop with a result pending succeeds,
and either leaves the loop or stays in it with a result pending and a smaller
measure. -/
theorem steady_step (cfg : Cfg) (c : Nat) (st : Sys) (h : Inv cfg st)
    (hpc : st.pc = .steady) (hne : st.pending ≠ []) (hsafe : Safe cfg) :
    ∃ st1, step cfg c st = .ok st1 ∧
      (st1.pc = .finished ∨
        (st1.pc = .steady ∧ st1.pending ≠ [] ∧ measure cfg st1 < measure cfg st)) := by
  have hlen : 0 < st.pending.length := List.length_pos.mpr hne
  have hidx : c % st.pending.length < st.pending.length := Nat.mod_lt _ hlen
  obtain ⟨⟨src, tag, px⟩, hget⟩ : ∃ e, st.pending[c % st.pending.length]? = some e :=
    ⟨_, List.getElem?_eq_getElem hidx⟩
  have hmem : (src, tag, px) ∈ st.pending := by
    obtain ⟨l₁, l₂, h1, _⟩ := getElem_split _ _ _ hget
    simp [h1]
  have htag := pending_tag_lt cfg st h _ hmem
  have hrle := h.row_le
  have hok : ¬ (0 < cfg.width ∧ (tag < 0 ∨ cfg.height ≤ tag)) := by
    rintro ⟨hw, hb⟩
    rcases hsafe with hs | hs
    · omega
    · have : st.row ≤ cfg.height := le_trans hrle (max_le hs le_rfl)
      simp only at htag
      omega
  have hex : ∃ st1, step cfg c st = .ok st1 := by
    simp only [step, hpc, hget]
    by_cases hr : st.row < cfg.height
    · simp [hr, store, hok]
    · simp [hr, store, hok]
  obtain ⟨st1, hs⟩ := hex
  refine ⟨st1, hs, ?_⟩
  have hcount := h.count_eq
  have ht := inv_step_trans cfg c st st1 h hs
  cases ht with
  | prime hpc1 hlt => rw [hpc] at hpc1; cases hpc1
  | enter hpc1 hge => rw [hpc] at hpc1; cases hpc1
  | stay hpc1 => rw [hpc] at hpc1; cases hpc1
  | assign l₁ l₂ src tag px hpc1 hp hrow hok1 =>
    right
    have hl : st.pending.length = l₁.length + l₂.length + 1 := by
      rw [hp]; simp; omega
    refine ⟨?_, ?_, ?_⟩
    · show (if st.count - 1 + 1 > 0 then Pc.steady else Pc.finished) = Pc.steady
      rw [if_pos (by omega)]
    · simp [assigned]
    · simp only [measure, assigned, List.length_append, List.length_singleton]
      omega
  | stop l₁ l₂ src tag px hpc1 hp hrow hok1 =>
    have hl : st.pending.length = l₁.length + l₂.length + 1 := by
      rw [hp]; simp; omega
    by_cases hc : st.count - 1 > 0
    · right
      refine ⟨?_, ?_, ?_⟩
      · show (if st.count - 1 > 0 then Pc.steady else Pc.finished) = Pc.steady
        rw [if_pos hc]
      · show l₁ ++ l₂ ≠ []
        intro hnil
        have : l₁.length + l₂.length = 0 := by
          rw [← List.length_append, hnil]; rfl
        omega
      · simp only [measure, stopped, List.length_append]
        omega
    · left
      show (if st.count - 1 > 0 then Pc.steady else Pc.finished) = Pc.finished
      rw [if_neg hc]

/-- In a safe run the `do` loop entered with a result pending is left after at
most `measure` passes. -/
theorem steady_run (cfg : Cfg) (sched : Nat → Nat) (hsafe : Safe cfg) (k : Nat) (st : Sys)
    (h : Inv cfg st) (hpc : st.pc = .steady) (hne : st.pending ≠ [])
    (hk : measure cfg st ≤ k) :
    ∃ n st1, run cfg sched n st = .ok st1 ∧ st1.pc = .finished := by
  induction k generalizing st with
  | zero =>
    have hlen : 0 < st.pending.length := List.length_pos.mpr hne
    simp only [measure] at hk
    omega
  | succ k ih =>
    obtain ⟨st1, hs, hcase⟩ := steady_step cfg (sched st.rcvd.length) st h hpc hne hsafe
    rcases hcase with hfin | ⟨hst, hne1, hlt⟩
    · exact ⟨1, st1, by simp [run, hs], hfin⟩
    · obtain ⟨n, st2, hr, hf⟩ := ih st1 (inv_step cfg _ st st1 h hs) hst hne1 (by omega)
      exact ⟨n + 1, st2, by simp only [run, hs]; exact hr, hf⟩

/-- Termination: with at least one worker, in a safe run and under every
schedule, the master leaves its loop; from some number of steps on the run
yields one and the same final state. -/
theorem exec_terminates (cfg : Cfg) (sched : Nat → Nat) (hw : 1 ≤ workers cfg)
    (hsafe : Safe cfg) :
    ∃ n st, st.pc = .finished ∧ ∀ m, n ≤ m → exec cfg sched m = .ok st := by
  obtain ⟨st1, hr1, hpc1⟩ :=
    prime_run cfg sched (cfg.comm_sz - init.proc) init (inv_init cfg) rfl rfl
  have hinv1 := inv_run cfg sched _ init st1 (inv_init cfg) hr1
  have hne : st1.pending ≠ [] := by
    intro hnil
    have := (hinv1.steady hpc1 hnil).1
    simp only [workers] at hw
    omega
  obtain ⟨n, st2, hr2, hf⟩ := steady_run cfg sched hsafe _ st1 hinv1 hpc1 hne le_rfl
  refine ⟨cfg.comm_sz - init.proc + 1 + n, st2, hf, ?_⟩
  intro m hm
  obtain ⟨d, rfl⟩ := Nat.exists_eq_add_of_le hm
  have h12 : run cfg sched (cfg.comm_sz - init.proc + 1 + n) init = .ok st2 := by
    rw [run_add cfg sched _ n init st1 hr1]
    exact hr2
  show run cfg sched (cfg.comm_sz - init.proc + 1 + n + d) init = .ok st2
  rw [run_add cfg sched _ d init st2 h12]
  exact run_finished cfg sched d st2 hf

/-! ## Consequences of the invariant -/

/-- Each of `0, …, n - 1` occurs once among the indices below `n`, and nothing
else does. -/
theorem count_range_map (n : Nat) (r : Int) :
    ((List.range n).map Int.ofNat).count r = if 0 ≤ r ∧ r < n then 1 else 0 := by
  induction n with
  | zero =>
    have : ¬ (0 ≤ r ∧ r < 0) := by omega
    simp [this]
  | succ n ih =>
    rw [List.range_succ, List.map_append, List.count_append, ih]
    simp only [List.map_cons, List.map_nil, List.count_cons, List.count_nil, Int.ofNat_eq_coe,
      beq_iff_eq]
    push_cast
    split_ifs <;> omega

/-- When the loop has been left nothing is in flight, `count` is 0 and `row`
is the larger of the number of workers and `height`. -/
theorem finished_facts (cfg : Cfg) (st : Sys) (h : Inv cfg st) (hf : st.pc = .finished) :
    st.pending = [] ∧ st.count = 0 ∧ cfg.height ≤ st.row ∧
      st.row = max (workers cfg : Int) cfg.height := by
  obtain ⟨hp, hh⟩ := h.fin hf
  have hne : st.pc ≠ .priming := by simp [hf]
  have hge := h.row_ge hne
  have hle := h.row_le
  refine ⟨hp, ?_, hh, le_antisymm hle (max_le hge hh)⟩
  rw [h.count_eq, hp]
  rfl

/-- When the loop has been left, the rows received are the rows sent: each of
`0, …, row - 1` once. -/
theorem finished_rcvd_count (cfg : Cfg) (st : Sys) (h : Inv cfg st) (hf : st.pc = .finished)
    (r : Int) :
    (st.rcvd.map Prod.snd).count r = if 0 ≤ r ∧ r < st.row then 1 else 0 := by
  have hp := (h.fin hf).1
  have hfl := h.flight r
  have hrow := h.row_nonneg
  rw [hp, h.rows, count_range_map] at hfl
  simp only [List.map_nil, List.count_nil, Nat.add_zero] at hfl
  rw [hfl]
  have : ((st.row.toNat : Nat) : Int) = st.row := Int.toNat_of_nonneg hrow
  rw [this]

/-- When the loop has been left, the rows received are `0, …, row - 1`. -/
theorem finished_mem_rcvd (cfg : Cfg) (st : Sys) (h : Inv cfg st) (hf : st.pc = .finished)
    (r : Int) : r ∈ st.rcvd.map Prod.snd ↔ 0 ≤ r ∧ r < st.row := by
  rw [← List.count_pos_iff, finished_rcvd_count cfg st h hf r]
  split_ifs with hc
  · simp [hc]
  · simp [hc]

/-- The cells one store assigns that are the cell `(r, c)`: one when the row is
`r` and `c` is a column of the image, none otherwise. -/
theorem rowWrites_filter_length (cfg : Cfg) (t : Int) (px : List Nat) (r : Int) (c : Nat) :
    ((rowWrites cfg t px).filter (fun w => w.1 = r ∧ w.2.1 = c)).length =
      if t = r ∧ c < cfg.width.toNat then 1 else 0 := by
  unfold rowWrites
  generalize cfg.width.toNat = n
  induction n with
  | zero => simp
  | succ n ih =>
    rw [List.range_succ, List.map_append, List.filter_append, List.length_append, ih]
    by_cases ht : t = r
    · by_cases hc : n = c
      · subst hc
        simp [ht]
      · have hc1 : ¬ (c < n + 1 ∧ ¬ c < n) := by omega
        simp [ht, hc]
        split_ifs <;> omega
    · simp [ht]

/-- The number of assignments to the cell `(r, c)` is the number of results
received with tag `r`, for a column `c` of the image. -/
theorem writeCount_eq (cfg : Cfg) (st : Sys) (h : Inv cfg st) (r : Int) (c : Nat)
    (hc : c < cfg.width.toNat) :
    writeCount st r c = (st.rcvd.map Prod.snd).count r := by
  unfold writeCount
  rw [h.writes_eq]
  generalize st.rcvd = l
  induction l with
  | nil => simp
  | cons m l ih =>
    rw [List.flatMap_cons, List.filter_append, List.length_append, ih,
      rowWrites_filter_length, List.map_cons, List.count_cons]
    by_cases hm : m.2 = r
    · simp [hm, hc]
      omega
    · simp [hm]

/-- Byte `col` of the payload of row `t`. -/
theorem rowPixels_getD (cfg : Cfg) (t : Int) (col : Nat) (h : col < cfg.width.toNat) :
    (rowPixels cfg t).getD col 0 = pixelByte cfg t col := by
  unfold rowPixels
  rw [List.getD_eq_getElem?_getD, List.getElem?_map, List.getElem?_range h]
  rfl

/-- The assignments to the raster are the cells of the rows received, each
with the byte the worker computes for it. -/
theorem mem_writes (cfg : Cfg) (st : Sys) (h : Inv cfg st) (w : Int × Nat × Nat) :
    w ∈ st.writes ↔
      w.1 ∈ st.rcvd.map Prod.snd ∧ w.2.1 < cfg.width.toNat ∧
        w.2.2 = pixelByte cfg w.1 w.2.1 := by
  rw [h.writes_eq]
  simp only [List.mem_flatMap, rowWrites, List.mem_map, List.mem_range]
  constructor
  · rintro ⟨m, hm, col, hcol, rfl⟩
    exact ⟨⟨m, hm, rfl⟩, hcol, rowPixels_getD cfg m.2 col hcol⟩
  · rintro ⟨⟨m, hm, hm1⟩, hcol, hv⟩
    refine ⟨m, hm, w.2.1, hcol, ?_⟩
    rw [rowPixels_getD cfg m.2 _ hcol, hm1, ← hv]

/-- The content of the raster: the cells of the rows received hold the byte the
worker computes for them, every other cell holds nothing. -/
theorem raster_eq (cfg : Cfg) (st : Sys) (h : Inv cfg st) (r : Int) (c : Nat) :
    raster st r c =
      if r ∈ st.rcvd.map Prod.snd ∧ c < cfg.width.toNat then some (pixelByte cfg r c)
      else none := by
  unfold raster
  cases hf : st.writes.reverse.find? (fun w => w.1 = r ∧ w.2.1 = c) with
  | none =>
    rw [List.find?_eq_none] at hf
    have hno : ¬ (r ∈ st.rcvd.map Prod.snd ∧ c < cfg.width.toNat) := by
      rintro ⟨hr, hc⟩
      have hm : (r, c, pixelByte cfg r c) ∈ st.writes :=
        (mem_writes cfg st h _).mpr ⟨hr, hc, rfl⟩
      have := hf _ (List.mem_reverse.mpr hm)
      simp at this
    rw [if_neg hno]
    rfl
  | some w =>
    have hm : w ∈ st.writes := List.mem_reverse.mp (List.mem_of_find?_eq_some hf)
    have hp := List.find?_some hf
    simp only [decide_eq_true_eq] at hp
    obtain ⟨h1, h2, h3⟩ := (mem_writes cfg st h w).mp hm
    rw [hp.1] at h1 h3
    rw [hp.2] at h2 h3
    rw [if_pos ⟨h1, h2⟩, ← h3]
    rfl

/-- The messages with a given value, counted through their destinations. -/
theorem count_msg (sent : List (Nat × Int)) (w : Nat) (v : Int) :
    sent.count (w, v) = ((sent.filter (fun m => m.2 = v)).map Prod.fst).count w := by
  induction sent with
  | nil => rfl
  | cons m l ih =>
    obtain ⟨a, b⟩ := m
    by_cases hb : b = v
    · by_cases ha : a = w
      · simp [List.count_cons, List.filter_cons, hb, ha, ih]
      · simp [List.count_cons, List.filter_cons, hb, ha, ih]
    · simp [List.count_cons, List.filter_cons, hb, ih]

/-- A list whose last element satisfying `p` is `a` ends with `a` followed by
elements that do not satisfy `p`. -/
theorem split_of_filter_getLast {α : Type} (p : α → Bool) (l : List α) (a : α)
    (h : (l.filter p).getLast? = some a) :
    ∃ pre post, l = pre ++ a :: post ∧ ∀ m ∈ post, p m = false := by
  induction l using List.reverseRecOn with
  | nil => simp at h
  | append_singleton l b ih =>
    by_cases hb : p b = true
    · have : (l ++ [b]).filter p = l.filter p ++ [b] := by simp [List.filter_append, hb]
      rw [this, List.getLast?_concat] at h
      simp only [Option.some.injEq] at h
      subst h
      exact ⟨l, [], rfl, by simp⟩
    · have : (l ++ [b]).filter p = l.filter p := by simp [List.filter_append, hb]
      rw [this] at h
      obtain ⟨pre, post, hl, hpost⟩ := ih h
      refine ⟨pre, post ++ [b], by simp [hl], ?_⟩
      intro m hm
      simp only [List.mem_append, List.mem_singleton] at hm
      rcases hm with hm | hm
      · exact hpost m hm
      · subst hm
        simpa using hb

/-- What a transition sends: at most one message, appended to the log; a row
index goes either to a worker that has not been sent anything yet, or to the
worker whose result the same transition receives, that result being the one for
the row last sent to it. -/
theorem trans_sends (cfg : Cfg) (st st1 : Sys) (h : Inv cfg st) (ht : Trans cfg st st1) :
    ∃ l, st1.sent = st.sent ++ l ∧ ∀ m ∈ l, m.2 ≠ kill →
      (∀ x ∈ st.sent, x.1 ≠ m.1) ∨
      ∃ tag, st1.rcvd = st.rcvd ++ [(m.1, tag)] ∧
        (st.sent.filter (fun x => x.1 = m.1)).getLast? = some (m.1, tag) := by
  cases ht with
  | prime hpc hlt =>
    obtain ⟨hproc, hsent, hpend, hex, hrcvd, hmax⟩ := h.priming hpc
    refine ⟨[(st.proc, st.row)], rfl, ?_⟩
    intro m hm _
    simp only [List.mem_singleton] at hm
    subst hm
    left
    intro x hx
    have hmem : x.1 ∈ List.range' 1 st.row.toNat := by
      rw [← hsent]
      exact List.mem_map_of_mem Prod.fst hx
    rw [List.mem_range'] at hmem
    show x.1 ≠ st.proc
    omega
  | enter hpc hge => exact ⟨[], by simp, by simp⟩
  | stay hpc => exact ⟨[], by simp, by simp⟩
  | assign l₁ l₂ src tag px hpc hp hrow hok =>
    refine ⟨[(src, st.row)], rfl, ?_⟩
    intro m hm _
    simp only [List.mem_singleton] at hm
    subst hm
    right
    exact ⟨tag, rfl, h.last_row (src, tag, px) (by simp [hp])⟩
  | stop l₁ l₂ src tag px hpc hp hrow hok =>
    refine ⟨[(src, kill)], rfl, ?_⟩
    intro m hm hne
    simp only [List.mem_singleton] at hm
    subst hm
    exact absurd rfl hne

/-- When the loop has been left the rows sent are `0, …, max workers height - 1`
in this order. -/
theorem rowsSent_finished (cfg : Cfg) (sched : Nat → Nat) (n : Nat) (st : Sys)
    (hr : exec cfg sched n = .ok st) (hf : st.pc = .finished) :
    rowsSent st = (List.range (max (workers cfg : Int) cfg.height).toNat).map Int.ofNat := by
  have h := inv_exec cfg sched n st hr
  rw [h.rows, (finished_facts cfg st h hf).2.2.2]

/-- With at most `height` workers the rows sent over a whole run are
`0, …, height - 1` in this order, each once. -/
theorem rowsSent_exactly_once (cfg : Cfg) (sched : Nat → Nat) (n : Nat) (st : Sys)
    (hw : (workers cfg : Int) ≤ cfg.height)
    (hr : exec cfg sched n = .ok st) (hf : st.pc = .finished) :
    rowsSent st = (List.range cfg.height.toNat).map Int.ofNat := by
  rw [rowsSent_finished cfg sched n st hr hf, max_eq_right hw]

/-- When the loop has been left, `count` is 0 and no row of `[0, height)` is
left to hand out; `row` is `height` when the workers are at most `height`. -/
theorem loop_exit_facts (cfg : Cfg) (sched : Nat → Nat) (n : Nat) (st : Sys)
    (hr : exec cfg sched n = .ok st) (hf : st.pc = .finished) :
    st.count = 0 ∧ st.pending = [] ∧ cfg.height ≤ st.row ∧
      ((workers cfg : Int) ≤ cfg.height → st.row = cfg.height) := by
  have h := inv_exec cfg sched n st hr
  obtain ⟨hp, hc, hh, hmax⟩ := finished_facts cfg st h hf
  exact ⟨hc, hp, hh, fun hw => by rw [hmax, max_eq_right hw]⟩

/-- Only safe runs leave the loop: when the image has columns, a run that has
left the loop had at most `height` workers. -/
theorem finished_safe (cfg : Cfg) (sched : Nat → Nat) (n : Nat) (st : Sys)
    (hr : exec cfg sched n = .ok st) (hf : st.pc = .finished) : Safe cfg := by
  have h := inv_exec cfg sched n st hr
  obtain ⟨hp, hc, hh, hmax⟩ := finished_facts cfg st h hf
  by_cases hw : 0 < cfg.width
  · right
    by_contra hlt
    have hlt1 : cfg.height < (workers cfg : Int) := by omega
    have hrow : st.row = (workers cfg : Int) := by
      rw [hmax]
      exact max_eq_left (le_of_lt hlt1)
    have hpos : 0 < st.row := by
      obtain ⟨m, hm⟩ := List.exists_mem_of_ne_nil _ (h.fin_rcvd hf)
      have := (finished_mem_rcvd cfg st h hf m.2).mp (List.mem_map_of_mem Prod.snd hm)
      omega
    have hmem : st.row - 1 ∈ st.rcvd.map Prod.snd := by
      rw [finished_mem_rcvd cfg st h hf]
      omega
    obtain ⟨m, hm, hm2⟩ := List.mem_map.mp hmem
    have := h.in_bounds hw m hm
    omega
  · left
    omega

/-- When the loop has been left, every cell of the image holds the byte the
worker computes for it. -/
theorem raster_finished (cfg : Cfg) (sched : Nat → Nat) (n : Nat) (st : Sys)
    (hr : exec cfg sched n = .ok st) (hf : st.pc = .finished) (r : Int) (c : Nat)
    (hr0 : 0 ≤ r) (hr1 : r < cfg.height) (hc : (c : Int) < cfg.width) :
    raster st r c = some (pixelByte cfg r c) := by
  have h := inv_exec cfg sched n st hr
  have hrow := (finished_facts cfg st h hf).2.2.1
  have hm : r ∈ st.rcvd.map Prod.snd :=
    (finished_mem_rcvd cfg st h hf r).mpr ⟨hr0, by omega⟩
  rw [raster_eq cfg st h, if_pos ⟨hm, by omega⟩]

/-! ## The claims -/

/-- C1, at the input `mandel_dynamic 1 1` (width = 1, height = 1) with three
processes, that is two workers: the input passes `valid` and, whatever the
schedule, after the priming loop the master has sent the row indices 0 and 1,
although the image has the single row 0. -/
theorem priming_sends_rows_past_height (cal : Int → Int → Int) (sched : Nat → Nat) :
    ∃ st, masterMain 3 1 1 3 cal sched 3 = some (.ok st) ∧
      st.pc = .steady ∧ rowsSent st = [0, 1] :=
  ⟨_, rfl, rfl, rfl⟩

/-- C2 (completeness): with at least one and at most `height` workers every
run leaves the loop, whatever the schedule; and in every run that has left the
loop, every row `r` of `[0, height)` has been received exactly once and every
cell `(r, c)` with `c` in `[0, width)` has been assigned exactly once. -/
theorem raster_complete (cfg : Cfg) (sched : Nat → Nat) :
    (1 ≤ workers cfg → (workers cfg : Int) ≤ cfg.height →
      ∃ n st, exec cfg sched n = .ok st ∧ st.pc = .finished) ∧
    (∀ n st, exec cfg sched n = .ok st → st.pc = .finished →
      ∀ (r : Int) (c : Nat), 0 ≤ r → r < cfg.height → (c : Int) < cfg.width →
        (st.rcvd.map Prod.snd).count r = 1 ∧ writeCount st r c = 1) := by
  constructor
  · intro hw hh
    obtain ⟨n, st, hf, hm⟩ := exec_terminates cfg sched hw (Or.inr hh)
    exact ⟨n, st, hm n le_rfl, hf⟩
  · intro n st hr hf r c hr0 hr1 hc
    have h := inv_exec cfg sched n st hr
    have hrow := (finished_facts cfg st h hf).2.2.1
    have hcnt : (st.rcvd.map Prod.snd).count r = 1 := by
      rw [finished_rcvd_count cfg st h hf r, if_pos ⟨hr0, by omega⟩]
    refine ⟨hcnt, ?_⟩
    rw [writeCount_eq cfg st h r c (by omega), hcnt]

/-- C2 at a run of three processes on a 2 × 3 image, first pending result
always delivered: the run leaves the loop, row 1 has been received once and
the cell (1, 1) assigned once. -/
theorem raster_complete_witness :
    (∃ n st, exec demoCfg (fun _ => 0) n = .ok st ∧ st.pc = .finished) ∧
    ((stateAfter demoCfg (fun _ => 0) 10).rcvd.map Prod.snd).count 1 = 1 ∧
      writeCount (stateAfter demoCfg (fun _ => 0) 10) 1 1 = 1 :=
  ⟨(raster_complete demoCfg (fun _ => 0)).1 (by decide) (by decide),
   (raster_complete demoCfg (fun _ => 0)).2 10 (stateAfter demoCfg (fun _ => 0) 10) rfl rfl
     1 1 (by decide) (by decide) (by decide)⟩

/-- C3, at the input `mandel_dynamic 1 1` (width = 1, height = 1) with three
processes, that is two workers: whatever the schedule, the priming loop sends
the row index 1 to worker 2, the worker in excess, and the run then stops at
the store of the result tagged 1, outside the one row of the raster. -/
theorem excess_worker_is_assigned_row (cal : Int → Int → Int) (sched : Nat → Nat) :
    (∃ st, masterMain 3 1 1 3 cal sched 3 = some (.ok st) ∧
      st.sent = [(1, 0), (2, 1)] ∧ st.pending.map (fun e => (e.1, e.2.1)) = [(1, 0), (2, 1)]) ∧
    masterMain 3 1 1 3 cal sched 5 = some (.error (.outOfBounds 1)) := by
  refine ⟨⟨_, rfl, rfl, rfl⟩, ?_⟩
  have h1 : sched 1 % 1 = 0 := Nat.mod_one _
  rcases Nat.mod_two_eq_zero_or_one (sched 0) with h | h
  · simp [masterMain, valid, inBounds, MAX_WIDTH, MAX_HEIGHT, exec, run, step, init, send,
      workerBody, store, kill, h, h1]
  · simp [masterMain, valid, inBounds, MAX_WIDTH, MAX_HEIGHT, exec, run, step, init, send,
      workerBody, store, kill, h]

/-- C4, at the input `argc = 3`, `argv[ 1 ] = "0"`, `argv[ 2 ] = "100"`:
`inBounds` tests `w < 0`, so a width of 0 passes, `valid` returns true with
`w = 0`, `h = 100`, and `main` goes on to the master branch; a height of -1, a
width of 32001 and a missing argument are rejected. -/
theorem valid_accepts_zero_width :
    inBounds 0 100 = true ∧ valid 3 0 100 0 0 = (true, 0, 100) ∧
      masterMain 3 0 100 2 (fun _ _ => 1) (fun _ => 0) 0 = some (.ok init) ∧
      (valid 3 100 (-1) 0 0).1 = false ∧ (valid 3 32001 100 0 0).1 = false ∧
      (valid 2 100 100 0 0).1 = false :=
  ⟨by decide, by decide, rfl, by decide, by decide, by decide⟩

/-- C6 (order independence): with at least one and at most `height` workers
the runs under two schedules both leave the loop; and whenever the runs under
two schedules, which differ only in which pending result each `MPI_Recv`
delivers, have both left the loop, every cell of the raster holds the same
value in both. -/
theorem raster_order_independent (cfg : Cfg) (s₁ s₂ : Nat → Nat) :
    (1 ≤ workers cfg → (workers cfg : Int) ≤ cfg.height →
      ∃ n₁ st₁ n₂ st₂, exec cfg s₁ n₁ = .ok st₁ ∧ st₁.pc = .finished ∧
        exec cfg s₂ n₂ = .ok st₂ ∧ st₂.pc = .finished) ∧
    (∀ n₁ st₁ n₂ st₂, exec cfg s₁ n₁ = .ok st₁ → st₁.pc = .finished →
      exec cfg s₂ n₂ = .ok st₂ → st₂.pc = .finished →
      ∀ r c, raster st₁ r c = raster st₂ r c) := by
  constructor
  · intro hw hh
    obtain ⟨n₁, st₁, hf₁, hm₁⟩ := exec_terminates cfg s₁ hw (Or.inr hh)
    obtain ⟨n₂, st₂, hf₂, hm₂⟩ := exec_terminates cfg s₂ hw (Or.inr hh)
    exact ⟨n₁, st₁, n₂, st₂, hm₁ n₁ le_rfl, hf₁, hm₂ n₂ le_rfl, hf₂⟩
  · intro n₁ st₁ n₂ st₂ hr₁ hf₁ hr₂ hf₂ r c
    have h₁ := inv_exec cfg s₁ n₁ st₁ hr₁
    have h₂ := inv_exec cfg s₂ n₂ st₂ hr₂
    have hrow₁ := (finished_facts cfg st₁ h₁ hf₁).2.2.2
    have hrow₂ := (finished_facts cfg st₂ h₂ hf₂).2.2.2
    have hmem : r ∈ st₁.rcvd.map Prod.snd ↔ r ∈ st₂.rcvd.map Prod.snd := by
      rw [finished_mem_rcvd cfg st₁ h₁ hf₁, finished_mem_rcvd cfg st₂ h₂ hf₂, hrow₁, hrow₂]
    rw [raster_eq cfg st₁ h₁, raster_eq cfg st₂ h₂]
    simp only [hmem]

/-- C6 at two runs of three processes on a 2 × 3 image, one always delivered
the first pending result and one the second: both leave the loop, they
receive the rows in different orders, and their rasters agree. -/
theorem raster_order_independent_witness :
    (∃ n₁ st₁ n₂ st₂, exec demoCfg (fun _ => 0) n₁ = .ok st₁ ∧ st₁.pc = .finished ∧
        exec demoCfg (fun _ => 1) n₂ = .ok st₂ ∧ st₂.pc = .finished) ∧
    (stateAfter demoCfg (fun _ => 0) 10).rcvd ≠ (stateAfter demoCfg (fun _ => 1) 10).rcvd ∧
    ∀ r c, raster (stateAfter demoCfg (fun _ => 0) 10) r c
      = raster (stateAfter demoCfg (fun _ => 1) 10) r c :=
  ⟨(raster_order_independent demoCfg (fun _ => 0) (fun _ => 1)).1 (by decide) (by decide),
   by decide,
   (raster_order_independent demoCfg (fun _ => 0) (fun _ => 1)).2
     10 (stateAfter demoCfg (fun _ => 0) 10) 10 (stateAfter demoCfg (fun _ => 1) 10)
     rfl rfl rfl rfl⟩

/-- C7, at the input `mandel_dynamic 0 1` (width = 0, height = 1) with three
processes, that is two workers: the input passes `valid` and, whatever the
schedule, the run leaves the loop after five steps with `count = 0` and
`row = 2`, which is not `height`. -/
theorem loop_exits_with_row_past_height (cal : Int → Int → Int) (sched : Nat → Nat) :
    ∃ st, masterMain 3 0 1 3 cal sched 5 = some (.ok st) ∧
      st.pc = .finished ∧ st.count = 0 ∧ st.row = 2 := by
  have h1 : sched 1 % 1 = 0 := Nat.mod_one _
  rcases Nat.mod_two_eq_zero_or_one (sched 0) with h | h
  · simp [masterMain, valid, inBounds, MAX_WIDTH, MAX_HEIGHT, exec, run, step, init, send,
      workerBody, store, kill, h, h1]
  · simp [masterMain, valid, inBounds, MAX_WIDTH, MAX_HEIGHT, exec, run, step, init, send,
      workerBody, store, kill, h, h1]

/-- C8 (termination signal): with at least one and at most `height` workers
every run leaves the loop; and in every run that has left the loop, each worker
`w` of the pool `1, …, comm_sz - 1` has been sent `kill` exactly once, and the
log of the messages sent splits around that `kill` with no message to `w` after
it. -/
theorem kill_sent_exactly_once (cfg : Cfg) (sched : Nat → Nat) :
    (1 ≤ workers cfg → (workers cfg : Int) ≤ cfg.height →
      ∃ n st, exec cfg sched n = .ok st ∧ st.pc = .finished) ∧
    (∀ n st, exec cfg sched n = .ok st → st.pc = .finished →
      ∀ w, 1 ≤ w → w < cfg.comm_sz →
        st.sent.count (w, kill) = 1 ∧
        ∃ pre post, st.sent = pre ++ (w, kill) :: post ∧ ∀ m ∈ post, m.1 ≠ w) := by
  constructor
  · intro hw hh
    obtain ⟨n, st, hf, hm⟩ := exec_terminates cfg sched hw (Or.inr hh)
    exact ⟨n, st, hm n le_rfl, hf⟩
  · intro n st hr hf w hw1 hw2
    have h := inv_exec cfg sched n st hr
    have hne : st.pc ≠ .priming := by simp [hf]
    have hex : w ∈ st.exited := by
      rcases h.pool hne w hw1 hw2 with hp | hp
      · rw [(h.fin hf).1] at hp
        simp at hp
      · exact hp
    constructor
    · rw [count_msg, h.kills]
      exact List.count_eq_one_of_mem h.exited_nodup hex
    · obtain ⟨pre, post, hs, hpost⟩ :=
        split_of_filter_getLast _ _ _ (h.last_kill w hex)
      refine ⟨pre, post, hs, ?_⟩
      intro m hm
      simpa using hpost m hm

/-- C8 at a run of three processes on a 2 × 3 image: the run leaves the loop and
worker 2 has been sent `kill` once, with nothing after it. -/
theorem kill_sent_exactly_once_witness :
    (∃ n st, exec demoCfg (fun _ => 1) n = .ok st ∧ st.pc = .finished) ∧
    ((stateAfter demoCfg (fun _ => 1) 10).sent.count (2, kill) = 1 ∧
      ∃ pre post, (stateAfter demoCfg (fun _ => 1) 10).sent = pre ++ (2, kill) :: post ∧
        ∀ m ∈ post, m.1 ≠ 2) :=
  ⟨(kill_sent_exactly_once demoCfg (fun _ => 1)).1 (by decide) (by decide),
   (kill_sent_exactly_once demoCfg (fun _ => 1)).2 10 (stateAfter demoCfg (fun _ => 1) 10)
     rfl rfl 2 (by decide) (by decide)⟩

/-- C9 (one outstanding row per worker): in every reachable state, every worker
has been sent at most one row more than the master has received results from
it; and whenever a step from that state sends a row index to a worker, either
that worker has not been sent anything before (its first row, in the priming
loop), or the same step receives that worker's result, tagged with the row last
sent to it. -/
theorem one_outstanding_row (cfg : Cfg) (st : Sys) (hreach : Reachable cfg st) :
    (∀ w, rowsTo st w ≤ resultsFrom st w + 1) ∧
    (∀ c st1, step cfg c st = .ok st1 →
      ∃ l, st1.sent = st.sent ++ l ∧ ∀ m ∈ l, m.2 ≠ kill →
        (∀ x ∈ st.sent, x.1 ≠ m.1) ∨
        ∃ tag, st1.rcvd = st.rcvd ++ [(m.1, tag)] ∧
          (st.sent.filter (fun x => x.1 = m.1)).getLast? = some (m.1, tag)) := by
  obtain ⟨sched, n, hr⟩ := hreach
  have h := inv_exec cfg sched n st hr
  constructor
  · intro w
    rw [h.balance w]
    have hnd : ((st.pending.filter (fun e => e.1 = w)).map Prod.fst).Nodup :=
      List.Nodup.sublist (List.Sublist.map _ (List.filter_sublist _)) h.nodup
    have hle : (st.pending.filter (fun e => e.1 = w)).length ≤ 1 := by
      match hl : st.pending.filter (fun e => e.1 = w) with
      | [] => rw [hl]; simp
      | [_] => rw [hl]; simp
      | a :: b :: t =>
        have ha : a ∈ st.pending.filter (fun e => e.1 = w) := by simp [hl]
        have hb : b ∈ st.pending.filter (fun e => e.1 = w) := by simp [hl]
        simp only [List.mem_filter, decide_eq_true_eq] at ha hb
        rw [hl] at hnd
        simp [ha.2, hb.2] at hnd
    omega
  · intro c st1 hs
    exact trans_sends cfg st st1 h (inv_step_trans cfg c st st1 h hs)

/-- C9 at the state four steps into a run of three processes on a 2 × 3
image. -/
theorem one_outstanding_row_witness :
    (∀ w, rowsTo (stateAfter demoCfg (fun _ => 1) 4) w
      ≤ resultsFrom (stateAfter demoCfg (fun _ => 1) 4) w + 1) ∧
    (∀ c st1, step demoCfg c (stateAfter demoCfg (fun _ => 1) 4) = .ok st1 →
      ∃ l, st1.sent = (stateAfter demoCfg (fun _ => 1) 4).sent ++ l ∧ ∀ m ∈ l, m.2 ≠ kill →
        (∀ x ∈ (stateAfter demoCfg (fun _ => 1) 4).sent, x.1 ≠ m.1) ∨
        ∃ tag, st1.rcvd = (stateAfter demoCfg (fun _ => 1) 4).rcvd ++ [(m.1, tag)] ∧
          ((stateAfter demoCfg (fun _ => 1) 4).sent.filter (fun x => x.1 = m.1)).getLast?
            = some (m.1, tag)) :=
  one_outstanding_row demoCfg (stateAfter demoCfg (fun _ => 1) 4) ⟨fun _ => 1, 4, rfl⟩

/-- C10, at two inputs that pass `valid`.  With `mandel_dynamic 1 0`
(height = 0) and two processes, that is one worker, the first step of the
priming loop sends row index 0 to worker 1.  With `mandel_dynamic 1 1` and one
process, that is no worker, the master sends nothing and its first `MPI_Recv`
never returns: every run of two steps or more is blocked. -/
theorem degenerate_runs_assign_or_block (cal : Int → Int → Int) (sched : Nat → Nat)
    (n : Nat) :
    (∃ st, masterMain 3 1 0 2 cal sched 1 = some (.ok st) ∧ st.sent = [(1, 0)]) ∧
    (∃ st, masterMain 3 1 1 1 cal sched 1 = some (.ok st) ∧ st.sent = []) ∧
    masterMain 3 1 1 1 cal sched (n + 2) = some (.error .blocked) := by
  refine ⟨⟨_, rfl, rfl⟩, ⟨_, rfl, rfl⟩, ?_⟩
  simp [masterMain, valid, inBounds, MAX_WIDTH, MAX_HEIGHT, exec, run, step, init]

/-! ## The pixel kernel: lemmas -/

/-- Entered with `count < 256` and at least one pass of fuel, the loop of
`cal_pixel` returns a count above the one it was entered with and at most
256. -/
theorem calLoop_range {α : Type} [Add α] [Sub α] [Mul α] [OfNat α 2] [OfNat α 4] [LT α]
    [∀ a b : α, Decidable (a < b)] (c : complex α) (fuel : Nat) (z : complex α)
    (count : Int) (h : count < 256) :
    count + 1 ≤ calLoop c (fuel + 1) z count ∧ calLoop c (fuel + 1) z count ≤ 256 := by
  induction fuel generalizing z count with
  | zero =>
    rw [calLoop]
    split
    · rw [calLoop]
      omega
    · omega
  | succ n ih =>
    rw [calLoop]
    split
    · rename_i hc
      have hlt : count + 1 < 256 := hc.2
      have := ih (calStep c z) (count + 1) hlt
      omega
    · omega

/-- If the first of the iterates of `z` that fails the test `lengthsq < 4.0` is
the one after `j + 1` passes, and the fuel and the bound 256 allow that many
passes, the loop returns `count + j + 1`. -/
theorem calLoop_escape {α : Type} [Add α] [Sub α] [Mul α] [OfNat α 2] [OfNat α 4] [LT α]
    [∀ a b : α, Decidable (a < b)] (c : complex α) (fuel j : Nat) (z : complex α)
    (count : Int) (hj : j < fuel) (hcf : count + fuel ≤ 256)
    (hlt : ∀ i, i < j → lengthsq ((calStep c)^[i + 1] z) < 4)
    (hesc : ¬ lengthsq ((calStep c)^[j + 1] z) < 4) :
    calLoop c fuel z count = count + j + 1 := by
  induction fuel generalizing z count j with
  | zero => omega
  | succ n ih =>
    rw [calLoop]
    cases j with
    | zero =>
      have hne : ¬ lengthsq (calStep c z) < 4 := hesc
      rw [if_neg (fun hc => hne hc.1)]
      simp
    | succ k =>
      have h0 : lengthsq (calStep c z) < 4 := hlt 0 (Nat.succ_pos k)
      have hc1 : count + 1 < calMax := by
        simp only [calMax]
        omega
      rw [if_pos ⟨h0, hc1⟩]
      have := ih k (calStep c z) (count + 1) (by omega) (by omega)
        (fun i hi => by
          have := hlt (i + 1) (by omega)
          rwa [Function.iterate_succ_apply] at this)
        (by rwa [Function.iterate_succ_apply] at hesc)
      rw [this]
      push_cast
      omega

/-- If every iterate of `z` the loop looks at before its last pass satisfies
`lengthsq < 4.0`, the loop entered with `count + fuel = 256` returns 256. -/
theorem calLoop_cap {α : Type} [Add α] [Sub α] [Mul α] [OfNat α 2] [OfNat α 4] [LT α]
    [∀ a b : α, Decidable (a < b)] (c : complex α) (fuel : Nat) (z : complex α)
    (count : Int) (hf : 1 ≤ fuel) (hcf : count + fuel = 256)
    (hlt : ∀ i, i + 1 < fuel → lengthsq ((calStep c)^[i + 1] z) < 4) :
    calLoop c fuel z count = 256 := by
  induction fuel generalizing z count with
  | zero => omega
  | succ n ih =>
    rw [calLoop]
    by_cases hn : n = 0
    · subst hn
      have hc1 : ¬ count + 1 < calMax := by
        simp only [calMax]
        omega
      rw [if_neg (fun hc => hc1 hc.2)]
      omega
    · have h0 : lengthsq (calStep c z) < 4 := hlt 0 (by omega)
      have hc1 : count + 1 < calMax := by
        simp only [calMax]
        omega
      rw [if_pos ⟨h0, hc1⟩]
      exact ih (calStep c z) (count + 1) (by omega) (by push_cast at hcf ⊢; omega)
        (fun i hi => by
          have := hlt (i + 1) (by omega)
          rwa [Function.iterate_succ_apply] at this)

/-- The loops of `cal_pixel` in the two programs are the same function. -/
theorem seq_calLoop_eq {α : Type} [Add α] [Sub α] [Mul α] [OfNat α 2] [OfNat α 4] [LT α]
    [∀ a b : α, Decidable (a < b)] (c : complex α) (fuel : Nat) (z : complex α)
    (count : Int) : MandelSeq.calLoop c fuel z count = calLoop c fuel z count := by
  induction fuel generalizing z count with
  | zero => rfl
  | succ n ih =>
    rw [MandelSeq.calLoop, calLoop, ih]
    rfl

/-- The function `cal_pixel` is the same in the two programs. -/
theorem seq_cal_pixel_eq {α : Type} [Add α] [Sub α] [Mul α] [OfNat α 0] [OfNat α 2]
    [OfNat α 4] [LT α] [∀ a b : α, Decidable (a < b)] (c : complex α) :
    MandelSeq.cal_pixel c = cal_pixel c :=
  seq_calLoop_eq c 256 _ 0

/-- The range of `cal_pixel`, for every type of numbers. -/
theorem cal_pixel_bounds {α : Type} [Add α] [Sub α] [Mul α] [OfNat α 0] [OfNat α 2]
    [OfNat α 4] [LT α] [∀ a b : α, Decidable (a < b)] (c : complex α) :
    1 ≤ cal_pixel c ∧ cal_pixel c ≤ 256 := by
  have := calLoop_range c 255 { real := 0, imag := 0 } 0 (by decide)
  simpa [cal_pixel] using this

/-- The byte of a count between 0 and 256 is the remainder of `count * 35`
modulo 256. -/
theorem palette_eq (count : Int) (h0 : 0 ≤ count) :
    (palette count : Int) = count * 35 % 256 := by
  unfold palette greyScaleMod
  rw [Int.tmod_eq_emod (by omega) (by decide)]
  omega

/-- The byte of a pixel is the palette value of its count. -/
theorem pixelByte_eq_palette (cfg : Cfg) (row col : Int) :
    pixelByte cfg row col = palette (cfg.cal row col) := rfl

/-- In exact arithmetic the iterates of the loop of `cal_pixel` are the
reference orbit. -/
theorem specOrbit_eq_iterate (c : complex ℚ) (n : Nat) :
    specOrbit c n = (calStep c)^[n] { real := 0, imag := 0 } := by
  induction n with
  | zero => rfl
  | succ n ih =>
    rw [Function.iterate_succ_apply', ← ih]
    simp only [specOrbit, calStep, complex.mk.injEq]
    constructor
    · trivial
    · ring

/-- In exact arithmetic `lengthsq` is the squared modulus. -/
theorem specNormSq_eq_lengthsq (z : complex ℚ) : specNormSq z = lengthsq z := by
  simp only [specNormSq, lengthsq]
  ring

/-! ## The worker: lemmas -/

/-- The worker answers the values it receives before the first `-1`, each with
its row, and sends nothing else. -/
theorem workerLoop_eq (cfg : Cfg) (msgs : List Int) :
    workerLoop cfg msgs =
      (msgs.takeWhile (fun r => r ≠ -1)).map (fun r => (r, rowPixels cfg r)) := by
  induction msgs with
  | nil => rfl
  | cons r rest ih =>
    by_cases hr : r = -1
    · simp [workerLoop, workerBody, hr]
    · simp [workerLoop, workerBody, hr, ih, List.takeWhile_cons]

/-- The payload of a row has `width` bytes. -/
theorem rowPixels_length (cfg : Cfg) (r : Int) :
    (rowPixels cfg r).length = cfg.width.toNat := by
  simp [rowPixels]

/-- Byte `c` of the payload of row `r` is the byte of the pixel `(r, c)`. -/
theorem rowPixels_getElem (cfg : Cfg) (r : Int) (c : Nat) (h : (c : Int) < cfg.width) :
    (rowPixels cfg r)[c]? = some (pixelByte cfg r c) := by
  have hc : c < cfg.width.toNat := by omega
  unfold rowPixels
  rw [List.getElem?_map, List.getElem?_range hc]
  rfl

/-- With workers that evaluate the mapping with the numbers `β` and run
`cal_pixel` with the numbers `α`, the byte of a pixel is
`( cal_pixel( c ) * 35 ) % 256` at the point stored for the pixel. -/
theorem pixelByte_kernel (β α : Type) [Sub β] [Mul β] [Div β] [OfNat β 2] [IntCast β]
    [Add α] [Sub α] [Mul α] [OfNat α 0] [OfNat α 2] [OfNat α 4] [LT α]
    [∀ a b : α, Decidable (a < b)] (narrow : β → α)
    (width height : Int) (comm_sz : Nat) (r c : Int) :
    pixelByte (kernelCfg β α narrow width height comm_sz) r c =
      ((cal_pixel (narrowPoint narrow (mapPixel width height r c : complex β)) * 35)
        % 256).toNat := by
  have hb := cal_pixel_bounds (narrowPoint narrow (mapPixel width height r c : complex β))
  have h := palette_eq
    (cal_pixel (narrowPoint narrow (mapPixel width height r c : complex β))) (by omega)
  rw [pixelByte_eq_palette]
  show palette (cal_pixel (narrowPoint narrow (mapPixel width height r c : complex β))) = _
  omega

/-- If the body of the loop maps the origin to itself and the origin passes the
test `lengthsq < 4.0`, `cal_pixel` returns 256. -/
theorem cal_pixel_of_fixed {α : Type} [Add α] [Sub α] [Mul α] [OfNat α 0] [OfNat α 2]
    [OfNat α 4] [LT α] [∀ a b : α, Decidable (a < b)] (c : complex α)
    (hfix : calStep c { real := 0, imag := 0 } = { real := 0, imag := 0 })
    (hlt : lengthsq ({ real := 0, imag := 0 } : complex α) < 4) : cal_pixel c = 256 := by
  unfold cal_pixel
  apply calLoop_cap c 256 _ 0 (by decide) (by decide)
  intro i _
  rw [Function.iterate_fixed hfix]
  exact hlt

/-- In exact arithmetic, that is with `cal_pixel` run on the rationals,
`cal_pixel( c )` is the least `n` of `[1, 256]` at which the reference orbit
has `|z_n|^2 >= 4`, and 256 when no `z_1, …, z_256` has. -/
theorem cal_pixel_exact_least_escape (c : complex ℚ) :
    (∀ n : Nat, 1 ≤ n → n ≤ 256 → 4 ≤ specNormSq (specOrbit c n) →
      (∀ m : Nat, 1 ≤ m → m < n → specNormSq (specOrbit c m) < 4) →
      cal_pixel c = n) ∧
    ((∀ n : Nat, 1 ≤ n → n ≤ 256 → specNormSq (specOrbit c n) < 4) →
      cal_pixel c = 256) := by
  constructor
  · intro n hn1 hn2 hesc hlt
    obtain ⟨j, rfl⟩ : ∃ j, n = j + 1 := ⟨n - 1, by omega⟩
    unfold cal_pixel
    rw [calLoop_escape c 256 j _ 0 (by omega) (by decide)]
    · push_cast
      omega
    · intro i hi
      rw [← specOrbit_eq_iterate, ← specNormSq_eq_lengthsq]
      exact hlt (i + 1) (by omega) (by omega)
    · rw [← specOrbit_eq_iterate, ← specNormSq_eq_lengthsq]
      exact not_lt.mpr hesc
  · intro hlt
    unfold cal_pixel
    apply calLoop_cap c 256 _ 0 (by decide) (by decide)
    intro i hi
    rw [← specOrbit_eq_iterate, ← specNormSq_eq_lengthsq]
    exact hlt (i + 1) (by omega) (by omega)

/-- The rounding of the model on a few numbers: 1/3 in `float` and in
`double`, a tie rounded to the even significand in either direction, the
conversion of the `double` 0.1 to `float`, and a product below the least
`float` quantum `2^-149`. -/
theorem Binary_round_examples :
    (1 : float) / 3 = { m := 11184811, e := -25 } ∧
    (1 : double) / 3 = { m := 6004799503160661, e := -54 } ∧
    ((16777217 : Int) : float) = 16777216 ∧
    ((16777219 : Int) : float) = 16777220 ∧
    toFloat ((1 : double) / 10) = { m := 13421773, e := -27 } ∧
    ({ m := 1, e := -100 } : float) * { m := 1, e := -50 } = 0 ∧
    ({ m := 3, e := -100 } : float) * { m := 1, e := -50 } = { m := 1, e := -148 } := by
  decide

/-- The point the worker of `mandel_dynamic.cpp` stores for a pixel:
`( col - width / 2 ) * ( 4 / width )` and `( row - height / 2 ) * ( 4 / width )`
evaluated in `double`, each converted to `float`. -/
theorem workerPoint_eq (width height row col : Int) :
    narrowPoint toFloat (mapPixel width height row col : complex double) =
      { real := toFloat (((col : double) - (width : double) / 2) * (4 / (width : double)))
        imag := toFloat (((row : double) - (height : double) / 2) * (4 / (width : double))) } := by
  have h4 : (2 : double) * 2 = 4 := by decide
  simp only [narrowPoint, mapPixel, h4]

/-! ## The claims, continued -/

set_option maxRecDepth 100000

/-- C5, at the input `mandel_dynamic 58 58` with three processes and
`mandel_seq 58 58`: whatever the schedule, the run of `mandel_dynamic` leaves
the loop with the byte 70 in the cell of row 8 and column 9 (`cal_pixel`
returns 2 in `float`), where the raster of `mandel_seq` holds 35 (`cal_pixel`
returns 1 in `double`). -/
theorem dynamic_raster_differs_from_sequential (sched : Nat → Nat) :
    (∃ n st, exec (workerCfg 58 58 3) sched n = .ok st ∧ st.pc = .finished ∧
      raster st 8 9 = some 70) ∧
    MandelSeq.raster 58 58 8 9 = some 35 ∧
    (workerCfg 58 58 3).cal 8 9 = 2 ∧
    MandelSeq.cal_pixel (mapPixel 58 58 8 9 : complex double) = 1 := by
  refine ⟨?_, by decide, by decide, by decide⟩
  obtain ⟨n, st, hf, hm⟩ :=
    exec_terminates (workerCfg 58 58 3) sched (by decide) (Or.inr (by decide))
  refine ⟨n, st, hm n le_rfl, hf, ?_⟩
  rw [raster_finished (workerCfg 58 58 3) sched n st (hm n le_rfl) hf 8 9
    (by decide) (by decide) (by decide)]
  decide

/-- C11 (worker loop contract), for the worker of `mandel_dynamic.cpp`: run on
the values its `MPI_Recv` calls return, the worker sends back one message for
each value before the first `-1`, tagged with that value, and nothing else; on
`-1` it sends nothing and leaves the loop; on a row `r` other than `-1` its one
reply is tagged `r`, has `width` bytes, and its byte at column `c` is
`( cal_pixel( c ) * 35 ) % 256` at the point `(( c - width / 2 ) * ( 4 / width ),
( r - height / 2 ) * ( 4 / width ))`, evaluated in `double`, stored as `float`,
with `cal_pixel` computing in `float`. -/
theorem worker_loop_contract (width height : Int) (comm_sz : Nat) :
    (∀ msgs : List Int, workerLoop (workerCfg width height comm_sz) msgs =
      (msgs.takeWhile (fun r => r ≠ -1)).map
        (fun r => (r, rowPixels (workerCfg width height comm_sz) r))) ∧
    workerBody (workerCfg width height comm_sz) (-1) = none ∧
    (∀ r : Int, r ≠ -1 →
      workerBody (workerCfg width height comm_sz) r
        = some (r, rowPixels (workerCfg width height comm_sz) r) ∧
      (rowPixels (workerCfg width height comm_sz) r).length = width.toNat ∧
      ∀ c : Nat, (c : Int) < width →
        (rowPixels (workerCfg width height comm_sz) r)[c]? =
          some ((cal_pixel
            ({ real := toFloat
                 ((((c : Int) : double) - (width : double) / 2) * (4 / (width : double)))
               imag := toFloat
                 (((r : double) - (height : double) / 2) * (4 / (width : double))) } :
              complex float) * 35) % 256).toNat) := by
  refine ⟨fun msgs => workerLoop_eq _ msgs, by simp [workerBody], ?_⟩
  intro r hr
  refine ⟨by simp [workerBody, hr], rowPixels_length _ r, ?_⟩
  intro c hc
  rw [rowPixels_getElem _ r c hc]
  show some (pixelByte (kernelCfg double float toFloat width height comm_sz) r c) = _
  rw [pixelByte_kernel, workerPoint_eq]

/-- C11 at the worker of a run on a 58 × 58 image: its reply to row 8 carries
the byte 70 at column 9. -/
theorem worker_loop_contract_witness :
    (rowPixels (workerCfg 58 58 3) 8)[9]? = some 70 :=
  ((worker_loop_contract 58 58 3).2.2 8 (by decide)).2.2 9 (by decide)

/-- C12 as stated fails.  At the `float` point `(-5/64, 16764411/2^23)`
`cal_pixel` of `mandel_dynamic.cpp` returns 1, and at the `double` point
`(-3/32, 4498649104146421/2^51)` `cal_pixel` of `mandel_seq.cpp` returns 1,
while in exact arithmetic the first iterate of either point has
`|z_1|^2 < 4` and the second has `|z_2|^2 >= 4`: the least `n` with
`|z_n|^2 >= 4` is 2. -/
theorem cal_pixel_rounding_counterexample :
    (cal_pixel ({ real := { m := -5, e := -6 }
                  imag := { m := 16764411, e := -23 } } : complex float) = 1 ∧
      Binary.toRat ({ m := -5, e := -6 } : float) = -5 / 64 ∧
      Binary.toRat ({ m := 16764411, e := -23 } : float) = 16764411 / 8388608 ∧
      specNormSq (specOrbit { real := -5 / 64, imag := 16764411 / 8388608 } 1) < 4 ∧
      4 ≤ specNormSq (specOrbit { real := -5 / 64, imag := 16764411 / 8388608 } 2)) ∧
    (MandelSeq.cal_pixel ({ real := { m := -3, e := -5 }
                            imag := { m := 4498649104146421, e := -51 } } :
        complex double) = 1 ∧
      Binary.toRat ({ m := -3, e := -5 } : double) = -3 / 32 ∧
      Binary.toRat ({ m := 4498649104146421, e := -51 } : double)
        = 4498649104146421 / 2251799813685248 ∧
      specNormSq (specOrbit
        { real := -3 / 32, imag := 4498649104146421 / 2251799813685248 } 1) < 4 ∧
      4 ≤ specNormSq (specOrbit
        { real := -3 / 32, imag := 4498649104146421 / 2251799813685248 } 2)) := by
  refine ⟨⟨by decide, ?_, ?_, ?_, ?_⟩, ⟨by decide, ?_, ?_, ?_, ?_⟩⟩
  · norm_num [Binary.toRat]
  · norm_num [Binary.toRat]
  · norm_num [specNormSq, specOrbit]
  · norm_num [specNormSq, specOrbit]
  · norm_num [Binary.toRat]
  · norm_num [Binary.toRat]
  · norm_num [specNormSq, specOrbit]
  · norm_num [specNormSq, specOrbit]

/-- C12 as amended: for every type of numbers, with `z_n` the value of `z`
after `n` passes through the body of the loop, computed with those numbers,
`cal_pixel( c )` of either program is the least `n` of `[1, 256]` at which the
test `lengthsq < 4.0` fails on `z_n`, and 256 when it holds on all of
`z_1, …, z_256`. -/
theorem cal_pixel_first_failed_test {α : Type} [Add α] [Sub α] [Mul α] [OfNat α 0]
    [OfNat α 2] [OfNat α 4] [LT α] [∀ a b : α, Decidable (a < b)] (c : complex α) :
    (∀ n : Nat, 1 ≤ n → n ≤ 256 →
      ¬ lengthsq ((calStep c)^[n] { real := 0, imag := 0 }) < 4 →
      (∀ m : Nat, 1 ≤ m → m < n →
        lengthsq ((calStep c)^[m] { real := 0, imag := 0 }) < 4) →
      cal_pixel c = n ∧ MandelSeq.cal_pixel c = n) ∧
    ((∀ n : Nat, 1 ≤ n → n ≤ 256 →
        lengthsq ((calStep c)^[n] { real := 0, imag := 0 }) < 4) →
      cal_pixel c = 256 ∧ MandelSeq.cal_pixel c = 256) := by
  constructor
  · intro n hn1 hn2 hesc hlt
    obtain ⟨j, rfl⟩ : ∃ j, n = j + 1 := ⟨n - 1, by omega⟩
    have h : cal_pixel c = ((j + 1 : Nat) : Int) := by
      unfold cal_pixel
      rw [calLoop_escape c 256 j _ 0 (by omega) (by decide)
        (fun i hi => hlt (i + 1) (by omega) (by omega)) hesc]
      push_cast
      omega
    exact ⟨h, by rw [seq_cal_pixel_eq, h]⟩
  · intro hlt
    have h : cal_pixel c = 256 := by
      unfold cal_pixel
      exact calLoop_cap c 256 _ 0 (by decide) (by decide)
        (fun i hi => hlt (i + 1) (by omega) (by omega))
    exact ⟨h, by rw [seq_cal_pixel_eq, h]⟩

/-- C12 as amended, in `float`: at the point `(-5/64, 16764411/2^23)` the test
fails on `z_1`, and at the origin it holds on every iterate. -/
theorem cal_pixel_first_failed_test_witness :
    (cal_pixel ({ real := { m := -5, e := -6 }
                  imag := { m := 16764411, e := -23 } } : complex float)
        = ((1 : Nat) : Int) ∧
      MandelSeq.cal_pixel ({ real := { m := -5, e := -6 }
                             imag := { m := 16764411, e := -23 } } : complex float)
        = ((1 : Nat) : Int)) ∧
    (cal_pixel ({ real := 0, imag := 0 } : complex float) = 256 ∧
      MandelSeq.cal_pixel ({ real := 0, imag := 0 } : complex float) = 256) :=
  ⟨(cal_pixel_first_failed_test _).1 1 (by decide) (by decide) (by decide)
      (fun m h1 h2 => absurd h1 (by omega)),
   (cal_pixel_first_failed_test _).2 (fun n _ _ => by
      rw [Function.iterate_fixed (by rfl)]
      decide)⟩

/-- C13 (centre pixel): with width = 100 and height = 100 the pixel of row 50
and column 50 is mapped, in `double`, to the point (0, 0), stored as the
`float` point (0, 0); `cal_pixel` returns 256 there in `float`, and the byte
stored is 0. -/
theorem centre_pixel (comm_sz : Nat) :
    (mapPixel 100 100 50 50 : complex double) = { real := 0, imag := 0 } ∧
    narrowPoint toFloat (mapPixel 100 100 50 50 : complex double)
      = { real := 0, imag := 0 } ∧
    cal_pixel (narrowPoint toFloat (mapPixel 100 100 50 50 : complex double)) = 256 ∧
    palette 256 = 0 ∧
    pixelByte (workerCfg 100 100 comm_sz) 50 50 = 0 := by
  have hnarrow : narrowPoint toFloat (mapPixel 100 100 50 50 : complex double)
      = { real := 0, imag := 0 } := by rfl
  have hcal : cal_pixel (narrowPoint toFloat (mapPixel 100 100 50 50 : complex double))
      = 256 := by
    rw [hnarrow]
    exact cal_pixel_of_fixed _ (by rfl) (by decide)
  refine ⟨by rfl, hnarrow, hcal, by decide, ?_⟩
  show pixelByte (kernelCfg double float toFloat 100 100 comm_sz) 50 50 = 0
  rw [pixelByte_kernel, hcal]
  decide

/-- C14 (corner pixel): with width = 100 and height = 100 the pixel of row 0
and column 0 is mapped, in `double`, to the point (-2, -2), stored as the
`float` point (-2, -2); its first iterate has `lengthsq = 8`, `cal_pixel`
returns 1 in `float`, and the byte stored is 35. -/
theorem corner_pixel (comm_sz : Nat) :
    (mapPixel 100 100 0 0 : complex double) = { real := -2, imag := -2 } ∧
    narrowPoint toFloat (mapPixel 100 100 0 0 : complex double)
      = { real := -2, imag := -2 } ∧
    lengthsq (calStep (narrowPoint toFloat (mapPixel 100 100 0 0 : complex double))
      { real := 0, imag := 0 }) = 8 ∧
    cal_pixel (narrowPoint toFloat (mapPixel 100 100 0 0 : complex double)) = 1 ∧
    palette 1 = 35 ∧
    pixelByte (workerCfg 100 100 comm_sz) 0 0 = 35 := by
  have hcal : cal_pixel (narrowPoint toFloat (mapPixel 100 100 0 0 : complex double))
      = 1 := by decide
  refine ⟨by rfl, by rfl, by decide, hcal, by decide, ?_⟩
  show pixelByte (kernelCfg double float toFloat 100 100 comm_sz) 0 0 = 35
  rw [pixelByte_kernel, hcal]
  decide

/-- C15 (ascending assignment order): in every reachable state, whatever the
schedule that led to it, the `k`-th row index the master has sent, counting
from 0 through the priming loop and the `do` loop, is `k`. -/
theorem assignments_ascending (cfg : Cfg) (st : Sys) (hreach : Reachable cfg st) (k : Nat)
    (hk : k < (rowsSent st).length) : (rowsSent st)[k]? = some (k : Int) := by
  obtain ⟨sched, n, hr⟩ := hreach
  have h := inv_exec cfg sched n st hr
  rw [h.rows] at hk ⊢
  rw [List.length_map, List.length_range] at hk
  rw [List.getElem?_map, List.getElem?_range hk]
  rfl

/-- C15 at the end of a run of three processes on a 2 × 3 image in which the
second pending result is always delivered: the assignment of index 2 carries
row 2. -/
theorem assignments_ascending_witness :
    (rowsSent (stateAfter demoCfg (fun _ => 1) 10))[2]? = some ((2 : Nat) : Int) :=
  assignments_ascending demoCfg (stateAfter demoCfg (fun _ => 1) 10) ⟨fun _ => 1, 10, rfl⟩ 2
    (by decide)

/-- C16 (range of the pixel kernel): for every type of numbers and every point
`c`, `cal_pixel( c )` of `mandel_dynamic.cpp` and of `mandel_seq.cpp` return a
count between 1 and 256; in particular never 0. -/
theorem cal_pixel_count_range {α : Type} [Add α] [Sub α] [Mul α] [OfNat α 0] [OfNat α 2]
    [OfNat α 4] [LT α] [∀ a b : α, Decidable (a < b)] (c : complex α) :
    (1 ≤ cal_pixel c ∧ cal_pixel c ≤ 256 ∧ cal_pixel c ≠ 0) ∧
    (1 ≤ MandelSeq.cal_pixel c ∧ MandelSeq.cal_pixel c ≤ 256 ∧ MandelSeq.cal_pixel c ≠ 0) := by
  have h := cal_pixel_bounds c
  rw [seq_cal_pixel_eq]
  refine ⟨⟨h.1, h.2, ?_⟩, ⟨h.1, h.2, ?_⟩⟩ <;> omega

/-- C17 (upper-bound soundness of validation): when `valid` returns true,
`argc` is 3, the dimensions stored are the parsed ones and both lie in
`[0, 32000]`; and every input with another argument count, a negative dimension
or a dimension above 32000 makes `valid` return false. -/
theorem valid_sound (argc a1 a2 w h : Int) :
    ((valid argc a1 a2 w h).1 = true →
      argc = 3 ∧ (valid argc a1 a2 w h).2 = (a1, a2) ∧
        0 ≤ a1 ∧ a1 ≤ 32000 ∧ 0 ≤ a2 ∧ a2 ≤ 32000) ∧
    (argc ≠ 3 ∨ a1 < 0 ∨ a2 < 0 ∨ 32000 < a1 ∨ 32000 < a2 →
      (valid argc a1 a2 w h).1 = false) := by
  constructor
  · intro hv
    obtain ⟨h3, h1, h2, h4, h5⟩ := (valid_true_iff argc a1 a2 w h).mp hv
    refine ⟨h3, ?_, h1, h2, h4, h5⟩
    unfold valid
    rw [if_pos h3]
    split <;> rfl
  · intro hbad
    cases hv : (valid argc a1 a2 w h).1 with
    | false => rfl
    | true =>
      have := (valid_true_iff argc a1 a2 w h).mp hv
      omega

/-- C17 at `mandel_dynamic 100 200`, accepted with `w = 100` and `h = 200`, and
at `mandel_dynamic 32001 5`, rejected. -/
theorem valid_sound_witness :
    ((3 : Int) = 3 ∧ (valid 3 100 200 0 0).2 = (100, 200) ∧
      (0 : Int) ≤ 100 ∧ (100 : Int) ≤ 32000 ∧ (0 : Int) ≤ 200 ∧ (200 : Int) ≤ 32000) ∧
    (valid 3 32001 5 0 0).1 = false :=
  ⟨(valid_sound 3 100 200 0 0).1 (by decide),
   (valid_sound 3 32001 5 0 0).2 (by decide)⟩

/-- C18 (the palette is lossless on counts): two counts of `[1, 256]` with the
same byte `( count * 35 ) % 256` are equal, and the byte 0 comes from the
count 256 only. -/
theorem palette_injective (a b : Int) (ha1 : 1 ≤ a) (ha2 : a ≤ 256) (hb1 : 1 ≤ b)
    (hb2 : b ≤ 256) :
    (palette a = palette b → a = b) ∧ (palette a = 0 ↔ a = 256) := by
  have hpa := palette_eq a (by omega)
  have hpb := palette_eq b (by omega)
  constructor
  · intro hab
    rw [hab] at hpa
    omega
  · constructor
    · intro h0
      rw [h0] at hpa
      push_cast at hpa
      omega
    · intro h256
      subst h256
      decide

/-- C18 at the counts 3 and 256. -/
theorem palette_injective_witness :
    (palette 3 = palette 256 → (3 : Int) = 256) ∧ (palette 3 = 0 ↔ (3 : Int) = 256) :=
  palette_injective 3 256 (by decide) (by decide) (by decide) (by decide)

/-- C19 (the two programs validate identically): `inBounds` of `mandel_seq.cpp`
is the negation of `inBounds` of `mandel_dynamic.cpp`, and the two functions
`valid` return the same `bool` and leave the same `w` and `h`. -/
theorem seq_valid_eq_dynamic_valid (argc a1 a2 w h : Int) :
    MandelSeq.inBounds argc a1 a2 = !inBounds a1 a2 ∧
    MandelSeq.valid argc a1 a2 w h = valid argc a1 a2 w h := by
  have hb : MandelSeq.inBounds argc a1 a2 = !inBounds a1 a2 := by
    unfold MandelSeq.inBounds inBounds MandelSeq.MAX_WIDTH MandelSeq.MAX_HEIGHT MAX_WIDTH
      MAX_HEIGHT
    split <;> rfl
  refine ⟨hb, ?_⟩
  unfold MandelSeq.valid valid
  rw [hb]
  cases inBounds a1 a2 <;> rfl

end MandelDynamic
